import Mathlib

/-!
Verification development for the opensearch-pi hybrid retrieval engine.

The JavaScript sources are shallowly embedded here:
* `src/search.js` — `SearchEngine.textSearch`, `fuseResults`,
  `computeFinalScore`, `hybridSearch` (its post-search fuse/filter/slice part).
* `src/embeddings.js` — `EmbeddingEngine.embed` and its feature pipeline.
* `src/simple-search.js` — `CollectionManager.generateDocumentId`,
  `indexCollection`, `parseMarkdownFile`, `remove`, and
  `DatabaseManager.cleanup`.

Numbers: JavaScript floating point arithmetic on scores is modelled by exact
rationals (`ℚ`); the embedding pipeline, whose claims concern square roots
and L2 norms, is modelled over the reals (`ℝ`).  SQL tables are modelled as
Lean lists of records; SQL result sets abstracted as input lists.  External
library calls that the verified claims do not depend on (the `natural`
TF-IDF weight, the Porter stemmer, the md5 bigram bucket hash) are taken as
function parameters; SHA-256 (from node's `crypto`) is implemented in full.
-/

/-! ## Generic list helpers (JS `Map` / `Set` / `Array.sort` semantics) -/

/-- Stable insertion used to model JS `Array.prototype.sort` (which is
stable): `le x y = true` keeps `x` in front of `y`. -/
def insertBy (le : α → α → Bool) (x : α) : List α → List α
  | [] => [x]
  | y :: ys => if le x y then x :: y :: ys else y :: insertBy le x ys

/-- Stable sort: earlier elements are inserted over the sorted tail, so an
earlier element precedes a later one whenever `le` holds between them. -/
def sortBy (le : α → α → Bool) (l : List α) : List α :=
  l.foldr (insertBy le) []

theorem mem_insertBy {le : α → α → Bool} {x a : α} {l : List α} :
    a ∈ insertBy le x l ↔ a = x ∨ a ∈ l := by
  induction l with
  | nil => simp [insertBy]
  | cons y ys ih =>
    simp only [insertBy]
    by_cases h : le x y = true <;> simp [h, ih] <;> tauto

theorem mem_sortBy {le : α → α → Bool} {a : α} {l : List α} :
    a ∈ sortBy le l ↔ a ∈ l := by
  induction l with
  | nil => simp [sortBy]
  | cons y ys ih => simp [sortBy, mem_insertBy] at *; tauto

theorem length_insertBy {le : α → α → Bool} {x : α} {l : List α} :
    (insertBy le x l).length = l.length + 1 := by
  induction l with
  | nil => rfl
  | cons y ys ih =>
    simp only [insertBy]
    by_cases h : le x y = true <;> simp [h, ih]

theorem length_sortBy {le : α → α → Bool} {l : List α} :
    (sortBy le l).length = l.length := by
  induction l with
  | nil => rfl
  | cons y ys ih => simp [sortBy, length_insertBy] at *; omega

/-- First-occurrence de-duplication with an accumulator of already seen
keys; models iteration order of a JS `Map`/`Set` built by insertion. -/
def dedupFirstAux [DecidableEq α] (seen : List α) : List α → List α
  | [] => []
  | x :: xs =>
    if x ∈ seen then dedupFirstAux seen xs else x :: dedupFirstAux (x :: seen) xs

/-- Keys of a JS `Map`/elements of a JS `Set` in insertion order. -/
def dedupFirst [DecidableEq α] (l : List α) : List α := dedupFirstAux [] l

theorem mem_dedupFirstAux [DecidableEq α] {seen : List α} {l : List α} {a : α} :
    a ∈ dedupFirstAux seen l ↔ a ∈ l ∧ a ∉ seen := by
  induction l generalizing seen with
  | nil => simp [dedupFirstAux]
  | cons x xs ih =>
    simp only [dedupFirstAux]
    by_cases h : x ∈ seen
    · simp only [if_pos h, ih, List.mem_cons]
      constructor
      · rintro ⟨hm, hs⟩; exact ⟨Or.inr hm, hs⟩
      · rintro ⟨hm | hm, hs⟩
        · exact absurd (hm ▸ h) hs
        · exact ⟨hm, hs⟩
    · simp only [if_neg h, List.mem_cons, ih]
      constructor
      · rintro (rfl | ⟨hm, hs⟩)
        · exact ⟨Or.inl rfl, h⟩
        · refine ⟨Or.inr hm, fun hc => hs ?_⟩
          simp [hc]
      · rintro ⟨hm | hm, hs⟩
        · exact Or.inl hm
        · by_cases hax : a = x
          · exact Or.inl hax
          · refine Or.inr ⟨hm, fun hc => ?_⟩
            rcases hc with h1 | h1
            · exact hax h1
            · exact hs h1

theorem mem_dedupFirst [DecidableEq α] {l : List α} {a : α} :
    a ∈ dedupFirst l ↔ a ∈ l := by
  simp [dedupFirst, mem_dedupFirstAux]

theorem nodup_dedupFirstAux [DecidableEq α] (seen : List α) (l : List α) :
    (dedupFirstAux seen l).Nodup := by
  induction l generalizing seen with
  | nil => simp [dedupFirstAux]
  | cons x xs ih =>
    simp only [dedupFirstAux]
    by_cases h : x ∈ seen
    · simp [h, ih]
    · simp only [if_neg h, List.nodup_cons]
      refine ⟨fun hc => ?_, ih _⟩
      rw [mem_dedupFirstAux] at hc
      exact hc.2 (by simp)

theorem nodup_dedupFirst [DecidableEq α] (l : List α) : (dedupFirst l).Nodup :=
  nodup_dedupFirstAux [] l

/-- JS `Set.prototype.add` on a set kept as an insertion-ordered list. -/
def insertSet [DecidableEq α] (l : List α) (x : α) : List α :=
  if x ∈ l then l else l ++ [x]

theorem mem_insertSet [DecidableEq α] {l : List α} {x a : α} :
    a ∈ insertSet l x ↔ a ∈ l ∨ a = x := by
  unfold insertSet
  by_cases h : x ∈ l
  · simp only [if_pos h]
    constructor
    · exact Or.inl
    · rintro (hm | rfl) <;> assumption
  · simp [if_neg h]

/-! ## `src/search.js` — data carried by search results -/

/-- One element of the result lists produced by `textSearch` / `vectorSearch`
and consumed by `fuseResults` (the fields the code reads/writes). -/
structure SRow where
  id : String
  path : String
  title : String
  collection : String
  snippet : String
  score : ℚ
deriving DecidableEq, Repr

/-- `Math.min` on rationals (no NaN in the model), kernel-reducible. -/
def qmin (a b : ℚ) : ℚ := if a ≤ b then a else b

/-- `Math.max` on rationals (no NaN in the model), kernel-reducible. -/
def qmax (a b : ℚ) : ℚ := if a ≤ b then b else a

theorem qmin_eq_min (a b : ℚ) : qmin a b = min a b := by
  unfold qmin
  split
  · exact (min_eq_left (by assumption)).symm
  · exact (min_eq_right (by linarith [lt_of_not_le (by assumption)])).symm

theorem qmax_eq_max (a b : ℚ) : qmax a b = max a b := by
  unfold qmax
  split
  · exact (max_eq_right (by assumption)).symm
  · exact (max_eq_left (by linarith [lt_of_not_le (by assumption)])).symm

/-- `Math.min(1, Math.max(0, x))` — the 0..1 clamp used on scores. -/
def clamp01 (x : ℚ) : ℚ := qmin 1 (qmax 0 x)

theorem clamp01_eq (x : ℚ) : clamp01 x = min 1 (max 0 x) := by
  rw [clamp01, qmin_eq_min, qmax_eq_max]

/-! ### `textSearch` (BM25 full-text search, `search.js` lines 22–60)

The SQL layer is abstracted as follows: the rows of `documents_fts`
matching the `MATCH ?` predicate, joined with `documents`, are given as an
input list, each carrying the raw `bm25(documents_fts)` value and the
`highlight(...)` snippet.  The query then appends
`AND d.collection = ?` (when a collection is given),
`AND bm25(documents_fts) >= -minScore`, `ORDER BY score DESC` (on the raw
bm25 alias) and `LIMIT ?`, and the JS maps each row to a result whose
score is `Math.max(0, Math.min(1, (-row.score) / 10))`. -/

/-- A matching row of the `documents_fts JOIN documents` query, with the raw
`bm25(documents_fts)` value in `raw`. -/
structure FtsRow where
  id : String
  path : String
  title : String
  collection : String
  content : String
  snippet : String
  raw : ℚ
deriving DecidableEq, Repr

/-- Replace every occurrence of the pattern in a char list (model of JS
`String.prototype.replace` with a global literal pattern). -/
def replaceSub (pat rep : List Char) (l : List Char) : List Char :=
  if hp : pat = [] then l
  else
    match l with
    | [] => []
    | c :: cs =>
      if pat.isPrefixOf (c :: cs) then
        rep ++ replaceSub pat rep ((c :: cs).drop pat.length)
      else
        c :: replaceSub pat rep cs
termination_by l.length
decreasing_by
  · simp only [List.length_drop, List.length_cons]
    have : pat.length ≠ 0 := fun h => hp (List.length_eq_zero.mp h)
    omega
  · simp

/-- JS `\s` over the ASCII range (the sources only handle text). -/
def isJsSpace (c : Char) : Bool :=
  c = ' ' || c = '\t' || c = '\n' || c = '\r'

/-- JS `\w` (non-unicode regex): ASCII alphanumeric or underscore. -/
def isWordChar (c : Char) : Bool := c.isAlphanum || c = '_'

/-- Maximal runs of characters satisfying `p`, dropping the separators;
`acc` holds the (reversed) run in progress.  Models both splitting on
whitespace (`p = not ∘ isJsSpace`) and tokenizing into `\w+` words. -/
def runsAux (p : Char → Bool) (acc : List Char) : List Char → List (List Char)
  | [] => if acc.isEmpty then [] else [acc.reverse]
  | c :: cs =>
    if p c then runsAux p (c :: acc) cs
    else if acc.isEmpty then runsAux p [] cs
    else acc.reverse :: runsAux p [] cs

/-- JS `Array.prototype.join(' ')`. -/
def joinSp : List String → String
  | [] => ""
  | [a] => a
  | a :: b :: rest => a ++ " " ++ joinSp (b :: rest)

/-- Collapse whitespace runs to single spaces and trim, as the composite of
JS `.replace(/\s+/g, ' ')` and `.trim()` produces. -/
def collapseSpaces (s : String) : String :=
  joinSp ((runsAux (fun c => !isJsSpace c) [] s.data).map (fun l => String.mk l))

/-- `cleanSnippet` (`search.js` lines 318–325): `<mark>`/`</mark>` become
`**`, whitespace runs collapse, ends trimmed. -/
def cleanSnippet (snippet : String) : String :=
  if snippet = "" then ""
  else
    collapseSpaces (String.mk (replaceSub ("</mark>".data) ("**".data)
      (replaceSub ("<mark>".data) ("**".data) snippet.data)))

/-- `SearchEngine.textSearch` (`search.js` lines 22–60) on the abstracted
rows: collection filter, `bm25(documents_fts) >= -minScore` filter,
`ORDER BY score DESC` on the raw bm25 value, `LIMIT`, then the JS row
mapping with score normalization `clamp01((-raw)/10)`. -/
def textSearch (rows : List FtsRow) (limit : ℕ) (coll : Option String)
    (minScore : ℚ) : List SRow :=
  let matched := rows.filter (fun r =>
    (match coll with | some c => r.collection = c | none => true) &&
    decide (r.raw ≥ -minScore))
  let ordered := sortBy (fun a b => decide (a.raw ≥ b.raw)) matched
  (ordered.take limit).map (fun r =>
    { id := r.id, path := r.path, title := r.title,
      collection := r.collection, snippet := cleanSnippet r.snippet,
      score := clamp01 ((-r.raw) / 10) })

/-! ### `fuseResults` / `computeFinalScore` (`search.js` lines 123–200) -/

/-- The value type held in the `resultMap` of `fuseResults`: the spread of a
search result plus the rank/score bookkeeping fields the code adds. -/
structure FuseEntry where
  id : String
  path : String
  title : String
  collection : String
  snippet : String
  textRank : Option ℕ
  textScore : ℚ
  vectorRank : Option ℕ
  vectorScore : ℚ
  rrfScore : ℚ
deriving DecidableEq, Repr

/-- Entry written for `textResults[index]` (`search.js` lines 128–137);
`rrfScore` is `1 / (k + index + 1)` doubled, `k = 60`. -/
def mkTextEntry (r : SRow) (index : ℕ) : FuseEntry :=
  { id := r.id, path := r.path, title := r.title, collection := r.collection,
    snippet := r.snippet,
    textRank := some (index + 1), textScore := r.score,
    vectorRank := none, vectorScore := 0,
    rrfScore := (1 / (60 + (index : ℚ) + 1)) * 2 }

/-- Entry written for a vector-only `vectorResults[index]` (lines 156–164). -/
def mkVecEntry (r : SRow) (index : ℕ) : FuseEntry :=
  { id := r.id, path := r.path, title := r.title, collection := r.collection,
    snippet := r.snippet,
    textRank := none, textScore := 0,
    vectorRank := some (index + 1), vectorScore := r.score,
    rrfScore := 1 / (60 + (index : ℚ) + 1) }

/-- Mutation of an existing entry when `vectorResults[index]` shares its id
(lines 146–154).  The snippet test runs after `vectorScore` has already
been overwritten with `result.score`, exactly as in the source. -/
def vecMerge (r : SRow) (index : ℕ) (e : FuseEntry) : FuseEntry :=
  let e1 := { e with vectorRank := some (index + 1), vectorScore := r.score,
                     rrfScore := e.rrfScore + 1 / (60 + (index : ℚ) + 1) }
  if r.score > e1.vectorScore ∨ e1.snippet = "" then { e1 with snippet := r.snippet }
  else e1

/-- JS `Map.prototype.set`: overwrite in place if the key exists, else
append (insertion order preserved). -/
def mapSet : List FuseEntry → FuseEntry → List FuseEntry
  | [], e => [e]
  | x :: xs, e => if x.id = e.id then e :: xs else x :: mapSet xs e

/-- In-place mutation of the entry stored under a key (JS `map.get(id)`
followed by field assignments). -/
def mapUpd : List FuseEntry → String → (FuseEntry → FuseEntry) → List FuseEntry
  | [], _, _ => []
  | x :: xs, i, f => if x.id = i then f x :: xs else x :: mapUpd xs i f

/-- JS `Map.prototype.has`. -/
def hasId (m : List FuseEntry) (i : String) : Bool := m.any (fun e => e.id = i)

/-- The `textResults.forEach` pass of `fuseResults` (lines 128–138). -/
def fuseText : List SRow → ℕ → List FuseEntry → List FuseEntry
  | [], _, m => m
  | r :: rs, index, m => fuseText rs (index + 1) (mapSet m (mkTextEntry r index))

/-- The `vectorResults.forEach` pass of `fuseResults` (lines 141–166). -/
def fuseVec : List SRow → ℕ → List FuseEntry → List FuseEntry
  | [], _, m => m
  | r :: rs, index, m =>
    fuseVec rs (index + 1)
      (if hasId m r.id then mapUpd m r.id (vecMerge r index)
       else mapSet m (mkVecEntry r index))

/-- `SearchEngine.computeFinalScore` (`search.js` lines 184–200): the
co-occurrence ×1.2 boost, the rank-1 ×1.1 boost, and the 0..1 clamp. -/
def computeFinalScore (e : FuseEntry) : ℚ :=
  let s1 := e.rrfScore
  let s2 := if e.textRank.isSome ∧ e.vectorRank.isSome then s1 * 1.2 else s1
  let s3 := if e.textRank = some 1 ∨ e.vectorRank = some 1 then s2 * 1.1 else s2
  qmin 1 (qmax 0 s3)

/-- `SearchEngine.fuseResults` (`search.js` lines 123–181): both passes over
the insertion-ordered map, sort by `rrfScore` descending (stable, as JS
`Array.prototype.sort`), and projection to the returned result records. -/
def fuseResults (textResults vectorResults : List SRow) : List SRow :=
  (sortBy (fun a b => decide (a.rrfScore ≥ b.rrfScore))
      (fuseVec vectorResults 0 (fuseText textResults 0 []))).map
    (fun e => { id := e.id, path := e.path, title := e.title,
                collection := e.collection, snippet := e.snippet,
                score := computeFinalScore e })

/-- The fuse/filter/slice tail of `SearchEngine.hybridSearch` (`search.js`
lines 113–119), on the two sub-search result lists. -/
def hybridFuse (textResults vectorResults : List SRow) (limit : ℕ)
    (minScore : ℚ) : List SRow :=
  ((fuseResults textResults vectorResults).filter
      (fun r => decide (r.score ≥ minScore))).take limit

/-! ### Rank characterization of the fusion (specification side)

`idxOf?` gives the 0-based position of the first result with a given id;
the 1-based ranks used by RRF are those positions plus one. -/

/-- 0-based index of the first result with the given id. -/
def idxOf? (i : String) : List SRow → Option ℕ
  | [] => none
  | r :: rs => if r.id = i then some 0 else (idxOf? i rs).map (· + 1)

/-- 1-based rank of a document in the keyword result list. -/
def textRankOf (textResults : List SRow) (i : String) : Option ℕ :=
  (idxOf? i textResults).map (· + 1)

/-- 1-based rank of a document in the vector result list. -/
def vectorRankOf (vectorResults : List SRow) (i : String) : Option ℕ :=
  (idxOf? i vectorResults).map (· + 1)

/-- Sum of the two reciprocal-rank contributions with `k = 60`: keyword
rank `r` contributes `2 × 1/(60 + r)`, vector rank `r` contributes
`1 × 1/(60 + r)`. -/
def rrfContrib (rt rv : Option ℕ) : ℚ :=
  (match rt with | some r => 2 * (1 / (60 + (r : ℚ))) | none => 0) +
  (match rv with | some r => 1 * (1 / (60 + (r : ℚ))) | none => 0)

/-- The claimed closed form of the final fused score: the RRF contributions,
the ×1.2 both-lists boost, the ×1.1 rank-1 boost, clamped to [0,1]. -/
def fusedScoreSpec (rt rv : Option ℕ) : ℚ :=
  clamp01 (rrfContrib rt rv * (if rt.isSome ∧ rv.isSome then 1.2 else 1) *
    (if rt = some 1 ∨ rv = some 1 then 1.1 else 1))

theorem idxOf?_eq_none_iff {i : String} {l : List SRow} :
    idxOf? i l = none ↔ i ∉ l.map (fun r => r.id) := by
  induction l with
  | nil => simp [idxOf?]
  | cons r rs ih =>
    simp only [idxOf?, List.map_cons, List.mem_cons]
    by_cases h : r.id = i
    · simp [h]
    · simp [h, ih, Ne.symm h]

theorem idxOf?_get {i : String} {l : List SRow} {k : ℕ}
    (h : idxOf? i l = some k) : ∃ r, l[k]? = some r ∧ r.id = i := by
  induction l generalizing k with
  | nil => simp [idxOf?] at h
  | cons r rs ih =>
    simp only [idxOf?] at h
    by_cases hr : r.id = i
    · simp only [if_pos hr, Option.some.injEq] at h
      exact ⟨r, by simp [← h], hr⟩
    · simp only [if_neg hr, Option.map_eq_some'] at h
      obtain ⟨k', hk', rfl⟩ := h
      obtain ⟨r', hr', hid⟩ := ih hk'
      exact ⟨r', by simpa using hr', hid⟩

theorem idxOf?_of_getElem? {l : List SRow} {k : ℕ} {r : SRow}
    (hn : (l.map (fun s => s.id)).Nodup) (h : l[k]? = some r) :
    idxOf? r.id l = some k := by
  induction l generalizing k with
  | nil => simp at h
  | cons x xs ih =>
    simp only [List.map_cons, List.nodup_cons] at hn
    cases k with
    | zero =>
      simp only [List.getElem?_cons_zero, Option.some.injEq] at h
      simp [idxOf?, h]
    | succ k' =>
      simp only [List.getElem?_cons_succ] at h
      have hmem : r ∈ xs := by
        obtain ⟨hlt, heq⟩ := List.getElem?_eq_some.mp h
        exact heq ▸ List.getElem_mem hlt
      have hrx : x.id ≠ r.id := by
        intro hc
        exact hn.1 (hc ▸ (List.mem_map.mpr ⟨r, hmem, rfl⟩))
      simp [idxOf?, hrx, ih hn.2 h]

/-! ### Structural description of the two `forEach` passes -/

/-- Ids stored in the fusion map. -/
def entryIds (m : List FuseEntry) : List String := m.map (fun e => e.id)

/-- The map after the text pass over fresh ids: one entry per result, in
order, carrying its 0-based index. -/
def textEntriesFrom : List SRow → ℕ → List FuseEntry
  | [], _ => []
  | r :: rs, index => mkTextEntry r index :: textEntriesFrom rs (index + 1)

/-- Effect of the whole vector pass on one already-present entry. -/
def vecApply : List SRow → ℕ → FuseEntry → FuseEntry
  | [], _, e => e
  | r :: rs, index, e =>
    if r.id = e.id then vecMerge r index e else vecApply rs (index + 1) e

/-- Entries appended by the vector pass for ids absent from the map
(`pres` tells which ids were already present). -/
def vecFresh (pres : String → Bool) : List SRow → ℕ → List FuseEntry
  | [], _ => []
  | r :: rs, index =>
    if pres r.id then vecFresh pres rs (index + 1)
    else mkVecEntry r index :: vecFresh pres rs (index + 1)

theorem vecMerge_id (r : SRow) (index : ℕ) (e : FuseEntry) :
    (vecMerge r index e).id = e.id := by
  simp only [vecMerge]
  split <;> rfl

theorem vecApply_id (vr : List SRow) (index : ℕ) (e : FuseEntry) :
    (vecApply vr index e).id = e.id := by
  induction vr generalizing index with
  | nil => rfl
  | cons r rs ih =>
    simp only [vecApply]
    by_cases h : r.id = e.id
    · simp [h, vecMerge_id]
    · simp [h, ih]

theorem entryIds_nil : entryIds [] = [] := rfl

theorem entryIds_cons (e : FuseEntry) (m : List FuseEntry) :
    entryIds (e :: m) = e.id :: entryIds m := rfl

theorem entryIds_append (m₁ m₂ : List FuseEntry) :
    entryIds (m₁ ++ m₂) = entryIds m₁ ++ entryIds m₂ := by
  simp [entryIds]

theorem hasId_eq_true_iff {m : List FuseEntry} {i : String} :
    hasId m i = true ↔ i ∈ entryIds m := by
  simp only [hasId, entryIds, List.any_eq_true, List.mem_map,
    decide_eq_true_eq]

theorem hasId_eq_false_iff {m : List FuseEntry} {i : String} :
    hasId m i = false ↔ i ∉ entryIds m := by
  rw [Bool.eq_false_iff, ne_eq, hasId_eq_true_iff]

theorem mapSet_of_fresh {m : List FuseEntry} {e : FuseEntry}
    (h : e.id ∉ entryIds m) : mapSet m e = m ++ [e] := by
  induction m with
  | nil => rfl
  | cons x xs ih =>
    rw [entryIds_cons, List.mem_cons] at h
    push_neg at h
    simp only [mapSet, if_neg (Ne.symm h.1)]
    rw [ih h.2]
    simp

theorem entryIds_textEntriesFrom (rs : List SRow) (index : ℕ) :
    entryIds (textEntriesFrom rs index) = rs.map (fun r => r.id) := by
  induction rs generalizing index with
  | nil => rfl
  | cons r rs ih =>
    rw [textEntriesFrom, entryIds_cons, List.map_cons, ih]
    rfl

theorem fuseText_eq_append {rs : List SRow} {index : ℕ} {m : List FuseEntry}
    (hn : (rs.map (fun r => r.id)).Nodup)
    (hfresh : ∀ r ∈ rs, r.id ∉ entryIds m) :
    fuseText rs index m = m ++ textEntriesFrom rs index := by
  induction rs generalizing index m with
  | nil => simp [fuseText, textEntriesFrom]
  | cons r rs ih =>
    simp only [List.map_cons, List.nodup_cons] at hn
    have hfr : (mkTextEntry r index).id ∉ entryIds m := hfresh r (by simp)
    have hfresh' : ∀ r' ∈ rs, r'.id ∉ entryIds (m ++ [mkTextEntry r index]) := by
      intro r' hr'
      rw [entryIds_append, List.mem_append]
      push_neg
      refine ⟨hfresh r' (by simp [hr']), ?_⟩
      rw [entryIds_cons, entryIds_nil, List.mem_singleton]
      intro hc
      exact hn.1 (List.mem_map.mpr ⟨r', hr', hc⟩)
    calc fuseText (r :: rs) index m
        = fuseText rs (index + 1) (mapSet m (mkTextEntry r index)) := rfl
      _ = fuseText rs (index + 1) (m ++ [mkTextEntry r index]) := by
          rw [mapSet_of_fresh hfr]
      _ = (m ++ [mkTextEntry r index]) ++ textEntriesFrom rs (index + 1) :=
          ih hn.2 hfresh'
      _ = m ++ textEntriesFrom (r :: rs) index := by
          rw [textEntriesFrom, List.append_assoc]
          rfl

theorem vecFresh_congr {p q : String → Bool} {rs : List SRow} {index : ℕ}
    (h : ∀ r ∈ rs, p r.id = q r.id) :
    vecFresh p rs index = vecFresh q rs index := by
  induction rs generalizing index with
  | nil => rfl
  | cons r rs ih =>
    have ih' := @ih (index + 1) (fun r' hr' => h r' (by simp [hr']))
    simp only [vecFresh, h r (by simp)]
    by_cases hq : q r.id = true <;> simp [hq, ih']

theorem entryIds_mapUpd {m : List FuseEntry} {i : String}
    {f : FuseEntry → FuseEntry} (hf : ∀ e, (f e).id = e.id) :
    entryIds (mapUpd m i f) = entryIds m := by
  induction m with
  | nil => rfl
  | cons x xs ih =>
    simp only [mapUpd]
    by_cases h : x.id = i
    · simp only [if_pos h, entryIds_cons, hf]
    · simp only [if_neg h, entryIds_cons, ih]

theorem vecApply_cons_ne {r : SRow} {rs : List SRow} {index : ℕ} {e : FuseEntry}
    (h : r.id ≠ e.id) : vecApply (r :: rs) index e = vecApply rs (index + 1) e := by
  simp [vecApply, h]

theorem vecApply_of_not_mem {vr : List SRow} {index : ℕ} {e : FuseEntry}
    (h : e.id ∉ vr.map (fun r => r.id)) : vecApply vr index e = e := by
  induction vr generalizing index with
  | nil => rfl
  | cons r rs ih =>
    simp only [List.map_cons, List.mem_cons] at h
    push_neg at h
    rw [vecApply_cons_ne (Ne.symm h.1), ih h.2]

theorem vecApply_eq_merge {vr : List SRow} {p index : ℕ} {e : FuseEntry}
    {r' : SRow} (h : idxOf? e.id vr = some p) (hg : vr[p]? = some r') :
    vecApply vr index e = vecMerge r' (index + p) e := by
  induction vr generalizing p index with
  | nil => simp [idxOf?] at h
  | cons r rs ih =>
    simp only [idxOf?] at h
    by_cases hr : r.id = e.id
    · simp only [if_pos hr, Option.some.injEq] at h
      subst h
      simp only [List.getElem?_cons_zero, Option.some.injEq] at hg
      subst hg
      simp [vecApply, hr]
    · simp only [if_neg hr, Option.map_eq_some'] at h
      obtain ⟨p', hp', rfl⟩ := h
      rw [vecApply_cons_ne hr]
      have hg' : rs[p']? = some r' := by simpa using hg
      rw [ih hp' hg']
      congr 1
      omega

theorem hasId_eq_decide {m : List FuseEntry} {i : String} :
    hasId m i = decide (i ∈ entryIds m) := by
  by_cases h : i ∈ entryIds m
  · simp [hasId_eq_true_iff, h]
  · simp [h, hasId_eq_false_iff.mpr h]

theorem map_vecApply_upd {m : List FuseEntry} {r : SRow} {rs : List SRow}
    {index : ℕ} (hnm : (entryIds m).Nodup)
    (hr : r.id ∉ rs.map (fun s => s.id)) :
    (mapUpd m r.id (vecMerge r index)).map (vecApply rs (index + 1)) =
      m.map (vecApply (r :: rs) index) := by
  induction m with
  | nil => rfl
  | cons x xs ihm =>
    rw [entryIds_cons, List.nodup_cons] at hnm
    by_cases hx : x.id = r.id
    · simp only [mapUpd, if_pos hx, List.map_cons]
      have hid : (vecMerge r index x).id ∉ rs.map (fun s => s.id) := by
        rw [vecMerge_id, hx]; exact hr
      rw [vecApply_of_not_mem hid]
      have hhd : vecApply (r :: rs) index x = vecMerge r index x := by
        simp [vecApply, hx]
      rw [hhd]
      congr 1
      apply List.map_congr_left
      intro e he
      have hne : r.id ≠ e.id := by
        intro hc
        exact hnm.1 (hx ▸ hc ▸ (List.mem_map.mpr ⟨e, he, rfl⟩))
      rw [vecApply_cons_ne hne]
    · simp only [mapUpd, if_neg hx, List.map_cons]
      rw [vecApply_cons_ne (fun hc => hx hc.symm), ihm hnm.2]

theorem fuseVec_eq {vr : List SRow} {index : ℕ} {m : List FuseEntry}
    (hnv : (vr.map (fun r => r.id)).Nodup) (hnm : (entryIds m).Nodup) :
    fuseVec vr index m =
      m.map (vecApply vr index) ++ vecFresh (hasId m) vr index := by
  induction vr generalizing index m with
  | nil =>
    simp only [fuseVec, vecFresh, List.append_nil]
    have h1 : m.map (vecApply [] index) = m.map id := by
      apply List.map_congr_left
      intro e _
      rfl
    rw [h1, List.map_id]
  | cons r rs ih =>
    simp only [List.map_cons, List.nodup_cons] at hnv
    by_cases hpres : hasId m r.id = true
    · have hupd : fuseVec (r :: rs) index m =
          fuseVec rs (index + 1) (mapUpd m r.id (vecMerge r index)) := by
        simp [fuseVec, hpres]
      have hids : entryIds (mapUpd m r.id (vecMerge r index)) = entryIds m :=
        entryIds_mapUpd (vecMerge_id r index)
      rw [hupd, ih hnv.2 (hids ▸ hnm)]
      have hfr : vecFresh (hasId (mapUpd m r.id (vecMerge r index))) rs (index + 1) =
          vecFresh (hasId m) rs (index + 1) := by
        apply vecFresh_congr
        intro r' _
        rw [hasId_eq_decide, hasId_eq_decide, hids]
      have hfr2 : vecFresh (hasId m) (r :: rs) index =
          vecFresh (hasId m) rs (index + 1) := by
        simp [vecFresh, hpres]
      rw [hfr, hfr2, map_vecApply_upd hnm hnv.1]
    · have habs : hasId m r.id = false := Bool.eq_false_iff.mpr hpres
      have hnotm : r.id ∉ entryIds m := hasId_eq_false_iff.mp habs
      have hupd : fuseVec (r :: rs) index m =
          fuseVec rs (index + 1) (mapSet m (mkVecEntry r index)) := by
        simp [fuseVec, habs]
      rw [hupd, @mapSet_of_fresh m (mkVecEntry r index) hnotm]
      have hids : entryIds (m ++ [mkVecEntry r index]) = entryIds m ++ [r.id] := by
        rw [entryIds_append]
        rfl
      have hnm' : (entryIds (m ++ [mkVecEntry r index])).Nodup := by
        rw [hids, List.nodup_append]
        exact ⟨hnm, List.nodup_singleton _, by
          intro a ha hb
          rw [List.mem_singleton] at hb
          exact hnotm (hb ▸ ha)⟩
      rw [ih hnv.2 hnm']
      have hmapv : (m ++ [mkVecEntry r index]).map (vecApply rs (index + 1)) =
          m.map (vecApply (r :: rs) index) ++ [mkVecEntry r index] := by
        rw [List.map_append]
        congr 1
        · apply List.map_congr_left
          intro e he
          have hne : r.id ≠ e.id := by
            intro hc
            exact hnotm (hc ▸ (List.mem_map.mpr ⟨e, he, rfl⟩))
          rw [vecApply_cons_ne hne]
        · simp only [List.map_cons, List.map_nil]
          rw [vecApply_of_not_mem (by exact hnv.1)]
      have hfr : vecFresh (hasId (m ++ [mkVecEntry r index])) rs (index + 1) =
          vecFresh (hasId m) rs (index + 1) := by
        apply vecFresh_congr
        intro r' hr'
        rw [hasId_eq_decide, hasId_eq_decide, hids]
        have hne : r'.id ≠ r.id := by
          intro hc
          exact hnv.1 (hc ▸ (List.mem_map.mpr ⟨r', hr', rfl⟩))
        simp [hne]
      have hfr2 : vecFresh (hasId m) (r :: rs) index =
          mkVecEntry r index :: vecFresh (hasId m) rs (index + 1) := by
        simp [vecFresh, habs]
      rw [hmapv, hfr, hfr2, List.append_assoc]
      rfl

theorem mem_textEntriesFrom {rs : List SRow} {index : ℕ} {e : FuseEntry}
    (h : e ∈ textEntriesFrom rs index) :
    ∃ k r, rs[k]? = some r ∧ e = mkTextEntry r (index + k) := by
  induction rs generalizing index with
  | nil => simp [textEntriesFrom] at h
  | cons r rs ih =>
    rw [textEntriesFrom, List.mem_cons] at h
    rcases h with rfl | h
    · exact ⟨0, r, by simp⟩
    · obtain ⟨k, r', hk, he⟩ := ih h
      refine ⟨k + 1, r', by simpa using hk, ?_⟩
      rw [he]
      congr 1
      omega

theorem mem_vecFresh {pres : String → Bool} {vr : List SRow} {index : ℕ}
    {e : FuseEntry} (h : e ∈ vecFresh pres vr index) :
    ∃ k r, vr[k]? = some r ∧ pres r.id = false ∧ e = mkVecEntry r (index + k) := by
  induction vr generalizing index with
  | nil => simp [vecFresh] at h
  | cons r rs ih =>
    rw [vecFresh] at h
    by_cases hp : pres r.id = true
    · rw [if_pos hp] at h
      obtain ⟨k, r', hk, hpr, he⟩ := ih h
      refine ⟨k + 1, r', by simpa using hk, hpr, ?_⟩
      rw [he]
      congr 1
      omega
    · rw [if_neg hp, List.mem_cons] at h
      rcases h with rfl | h
      · exact ⟨0, r, by simp, Bool.eq_false_iff.mpr hp, by simp⟩
      · obtain ⟨k, r', hk, hpr, he⟩ := ih h
        refine ⟨k + 1, r', by simpa using hk, hpr, ?_⟩
        rw [he]
        congr 1
        omega

theorem vecMerge_textRank (r : SRow) (index : ℕ) (e : FuseEntry) :
    (vecMerge r index e).textRank = e.textRank := by
  simp only [vecMerge]
  split <;> rfl

theorem vecMerge_vectorRank (r : SRow) (index : ℕ) (e : FuseEntry) :
    (vecMerge r index e).vectorRank = some (index + 1) := by
  simp only [vecMerge]
  split <;> rfl

theorem vecMerge_rrfScore (r : SRow) (index : ℕ) (e : FuseEntry) :
    (vecMerge r index e).rrfScore = e.rrfScore + 1 / (60 + (index : ℚ) + 1) := by
  simp only [vecMerge]
  split <;> rfl

/-- Field characterization of every entry produced by the two `forEach`
passes of `fuseResults`, for duplicate-free input id lists: the stored
ranks are the 1-based positions in the two result lists, and the stored
`rrfScore` is the weighted reciprocal-rank sum. -/
theorem fused_entry_fields {tr vr : List SRow}
    (hnt : (tr.map (fun r => r.id)).Nodup)
    (hnv : (vr.map (fun r => r.id)).Nodup) :
    ∀ e ∈ fuseVec vr 0 (fuseText tr 0 []),
      e.textRank = textRankOf tr e.id ∧ e.vectorRank = vectorRankOf vr e.id ∧
      e.rrfScore = rrfContrib (textRankOf tr e.id) (vectorRankOf vr e.id) := by
  intro e he
  rw [fuseText_eq_append hnt (by intro r _; simp [entryIds]),
    List.nil_append] at he
  rw [fuseVec_eq hnv (by rw [entryIds_textEntriesFrom]; exact hnt)] at he
  rcases List.mem_append.mp he with hL | hR
  · obtain ⟨te, hte, rfl⟩ := List.mem_map.mp hL
    obtain ⟨k, r, hk, rfl⟩ := mem_textEntriesFrom hte
    have hid : (vecApply vr 0 (mkTextEntry r (0 + k))).id = r.id := by
      rw [vecApply_id]
      rfl
    have htrank : textRankOf tr r.id = some (k + 1) := by
      rw [textRankOf, idxOf?_of_getElem? hnt hk]
      rfl
    rcases hvc : idxOf? r.id vr with _ | p
    · have hnm : r.id ∉ vr.map (fun s => s.id) := idxOf?_eq_none_iff.mp hvc
      have happ : vecApply vr 0 (mkTextEntry r (0 + k)) = mkTextEntry r (0 + k) :=
        vecApply_of_not_mem (by rw [show (mkTextEntry r (0 + k)).id = r.id from rfl]; exact hnm)
      rw [hid, htrank, happ, vectorRankOf, hvc]
      refine ⟨by simp [mkTextEntry], rfl, ?_⟩
      simp only [mkTextEntry, rrfContrib, Option.map_none']
      push_cast
      ring
    · obtain ⟨r', hr', hid'⟩ := idxOf?_get hvc
      have happ : vecApply vr 0 (mkTextEntry r (0 + k)) =
          vecMerge r' (0 + p) (mkTextEntry r (0 + k)) :=
        vecApply_eq_merge (by rw [show (mkTextEntry r (0 + k)).id = r.id from rfl]; exact hvc) hr'
      rw [hid, htrank, happ, vectorRankOf, hvc]
      refine ⟨?_, ?_, ?_⟩
      · rw [vecMerge_textRank]
        simp [mkTextEntry]
      · rw [vecMerge_vectorRank]
        simp
      · rw [vecMerge_rrfScore]
        simp only [mkTextEntry, rrfContrib, Option.map_some']
        push_cast
        ring
  · obtain ⟨k, r, hk, hpres, rfl⟩ := mem_vecFresh hR
    have hid : (mkVecEntry r (0 + k)).id = r.id := rfl
    have hnotm : r.id ∉ tr.map (fun s => s.id) := by
      have := hasId_eq_false_iff.mp hpres
      rwa [entryIds_textEntriesFrom] at this
    have htrank : textRankOf tr r.id = none := by
      rw [textRankOf, idxOf?_eq_none_iff.mpr hnotm]
      rfl
    have hvrank : vectorRankOf vr r.id = some (k + 1) := by
      rw [vectorRankOf, idxOf?_of_getElem? hnv hk]
      rfl
    rw [hid, htrank, hvrank]
    refine ⟨rfl, ?_, ?_⟩
    · simp [mkVecEntry]
    · simp only [mkVecEntry, rrfContrib]
      push_cast
      ring

/-- `computeFinalScore` agrees with the closed-form `fusedScoreSpec` on any
entry whose fields satisfy the rank characterization. -/
theorem computeFinalScore_eq_spec {e : FuseEntry} {rt rv : Option ℕ}
    (h1 : e.textRank = rt) (h2 : e.vectorRank = rv)
    (h3 : e.rrfScore = rrfContrib rt rv) :
    computeFinalScore e = fusedScoreSpec rt rv := by
  subst h1
  subst h2
  simp only [computeFinalScore, fusedScoreSpec, clamp01, h3]
  split_ifs <;> ring_nf

/-! ### Arithmetic facts about the fused score -/

/-- Ranks produced by the fusion are 1-based. -/
def validRank (o : Option ℕ) : Prop := ∀ r, o = some r → 1 ≤ r

theorem validRank_textRankOf (tr : List SRow) (d : String) :
    validRank (textRankOf tr d) := by
  intro r hr
  cases h : idxOf? d tr with
  | none => simp [textRankOf, h] at hr
  | some k =>
    simp only [textRankOf, h, Option.map_some', Option.some.injEq] at hr
    omega

theorem validRank_vectorRankOf (vr : List SRow) (d : String) :
    validRank (vectorRankOf vr d) := by
  intro r hr
  cases h : idxOf? d vr with
  | none => simp [vectorRankOf, h] at hr
  | some k =>
    simp only [vectorRankOf, h, Option.map_some', Option.some.injEq] at hr
    omega

theorem rrfContrib_nonneg {rt rv : Option ℕ}
    (ht : validRank rt) (hv : validRank rv) : 0 ≤ rrfContrib rt rv := by
  rcases rt with _ | a <;> rcases rv with _ | b <;>
    simp only [rrfContrib] <;> positivity

theorem rrf_term_le {r : ℕ} (h : 1 ≤ r) : (1 : ℚ) / (60 + (r : ℚ)) ≤ 1 / 61 := by
  have h61 : (61 : ℚ) ≤ 60 + (r : ℚ) := by
    have : (1 : ℚ) ≤ (r : ℚ) := by exact_mod_cast h
    linarith
  have hpos : (0 : ℚ) < 61 := by norm_num
  exact one_div_le_one_div_of_le hpos h61

theorem rrfContrib_le {rt rv : Option ℕ}
    (ht : validRank rt) (hv : validRank rv) : rrfContrib rt rv ≤ 3 / 61 := by
  rcases rt with _ | a <;> rcases rv with _ | b <;> simp only [rrfContrib]
  · norm_num
  · have hb := rrf_term_le (hv b rfl)
    linarith
  · have ha := rrf_term_le (ht a rfl)
    linarith
  · have ha := rrf_term_le (ht a rfl)
    have hb := rrf_term_le (hv b rfl)
    linarith

theorem clamp01_le {x c : ℚ} (hx : x ≤ c) (hc : 0 ≤ c) : clamp01 x ≤ c := by
  rw [clamp01_eq]
  exact min_le_of_right_le (max_le hc hx)

theorem clamp01_eq_self {x : ℚ} (h0 : 0 ≤ x) (h1 : x ≤ 1) : clamp01 x = x := by
  rw [clamp01_eq, max_eq_right h0, min_eq_right h1]

theorem fusedScoreSpec_le_bound {rt rv : Option ℕ}
    (ht : validRank rt) (hv : validRank rv) :
    fusedScoreSpec rt rv ≤ 3 / 61 * 1.2 * 1.1 := by
  have hc0 := rrfContrib_nonneg ht hv
  have hcle := rrfContrib_le ht hv
  unfold fusedScoreSpec
  apply clamp01_le _ (by norm_num)
  split_ifs <;> nlinarith

theorem fusedScoreSpec_both_strict (a b : ℕ) :
    fusedScoreSpec (some (a + 1)) none < fusedScoreSpec (some (a + 1)) (some (b + 1)) ∧
    fusedScoreSpec none (some (b + 1)) < fusedScoreSpec (some (a + 1)) (some (b + 1)) := by
  have hA0 : (0:ℚ) < 2 * (1 / (60 + ((a + 1 : ℕ) : ℚ))) := by positivity
  have hB0 : (0:ℚ) < 1 * (1 / (60 + ((b + 1 : ℕ) : ℚ))) := by positivity
  have hAle : (1 : ℚ) / (60 + ((a + 1 : ℕ) : ℚ)) ≤ 1 / 61 := rrf_term_le (by omega)
  have hBle : (1 : ℚ) / (60 + ((b + 1 : ℕ) : ℚ)) ≤ 1 / 61 := rrf_term_le (by omega)
  simp only [fusedScoreSpec, rrfContrib, Option.isSome_some, Option.isSome_none,
    and_true, and_false, if_false, if_true, Option.some.injEq, or_false, false_or,
    reduceCtorEq]
  by_cases ha : a + 1 = 1 <;> by_cases hb : b + 1 = 1 <;>
    simp only [ha, hb, if_true, if_false, or_true, true_or, or_self,
      if_pos, reduceIte] <;>
    constructor <;>
    · rw [clamp01_eq_self (by positivity) (by nlinarith),
        clamp01_eq_self (by positivity) (by nlinarith)]
      nlinarith

/-- A strongly matching FTS row: raw bm25 `-5`, normalized score `1/2`. -/
def ftsRowStrong : FtsRow :=
  { id := "d1", path := "p1", title := "t1", collection := "c",
    content := "", snippet := "", raw := -5 }

/-- A mid matching FTS row: raw bm25 `-1`, normalized score `1/10`. -/
def ftsRowMid : FtsRow :=
  { id := "d2", path := "p2", title := "t2", collection := "c",
    content := "", snippet := "", raw := -1 }

/-- A weakly matching FTS row: raw bm25 `-2/5`, normalized score `1/25`. -/
def ftsRowWeak : FtsRow :=
  { id := "d3", path := "p3", title := "t3", collection := "c",
    content := "", snippet := "", raw := -2/5 }

/-- Sample keyword result row used to instantiate the fusion theorems. -/
def sampleRowA : SRow :=
  { id := "a", path := "p", title := "t", collection := "c",
    snippet := "s", score := 1/2 }

theorem mem_textEntriesFrom_of {tr : List SRow} {k index : ℕ} {r : SRow}
    (h : tr[k]? = some r) : mkTextEntry r (index + k) ∈ textEntriesFrom tr index := by
  induction tr generalizing k index with
  | nil => simp at h
  | cons x xs ih =>
    cases k with
    | zero =>
      simp only [List.getElem?_cons_zero, Option.some.injEq] at h
      subst h
      simp [textEntriesFrom]
    | succ k' =>
      simp only [List.getElem?_cons_succ] at h
      rw [textEntriesFrom, List.mem_cons]
      refine Or.inr ?_
      have := @ih k' (index + 1) h
      have harith : index + 1 + k' = index + (k' + 1) := by omega
      rwa [harith] at this

theorem exists_fused_entry_of_text {tr vr : List SRow} {d : String}
    (hnt : (tr.map (fun r => r.id)).Nodup)
    (hnv : (vr.map (fun r => r.id)).Nodup)
    (hd : d ∈ tr.map (fun r => r.id)) :
    ∃ e ∈ fuseResults tr vr, e.id = d := by
  obtain ⟨r, hr, rfl⟩ := List.mem_map.mp hd
  obtain ⟨k, hk⟩ := List.mem_iff_getElem?.mp hr
  have hte := @mem_textEntriesFrom_of tr k 0 r hk
  have hmem : vecApply vr 0 (mkTextEntry r (0 + k)) ∈
      fuseVec vr 0 (fuseText tr 0 []) := by
    rw [fuseText_eq_append hnt (by intro r' _; simp [entryIds]), List.nil_append,
      fuseVec_eq hnv (by rw [entryIds_textEntriesFrom]; exact hnt)]
    exact List.mem_append.mpr (Or.inl (List.mem_map.mpr ⟨_, hte, rfl⟩))
  refine ⟨_, List.mem_map.mpr ⟨_, mem_sortBy.mpr hmem, rfl⟩, ?_⟩
  rw [vecApply_id]
  rfl

/-- C1: the spec (and the claim) require `textSearch` to return the matching
documents best-first under the more-negative-is-better raw BM25 reading,
with normalized score `clamp((-raw)/10, 0, 1)`, every returned score being
`≥ minScore`.  The code instead keeps only rows with `raw ≥ -minScore` and
sorts the raw value descending.  Concretely: a strong match (`raw = -5`,
normalized score `1/2`) is dropped at the default `minScore = 0`; at
`minScore = 1/2` a weak match (`raw = -2/5`) is returned with normalized
score `1/25 < 1/2`; and at a permissive cutoff two matches come back
ordered worst-first (`[1/10, 1/2]`). -/
theorem C1_textSearch_filter_and_order_bug :
    textSearch [ftsRowStrong] 5 none 0 = [] ∧
    clamp01 ((-ftsRowStrong.raw) / 10) = 1 / 2 ∧
    (textSearch [ftsRowWeak] 5 none (1 / 2)).map (fun r => r.score) = [1 / 25] ∧
    (textSearch [ftsRowStrong, ftsRowMid] 5 none 10).map (fun r => r.score) =
      [1 / 10, 1 / 2] := by
  refine ⟨?_, ?_, ?_, ?_⟩ <;>
    norm_num [textSearch, ftsRowStrong, ftsRowMid, ftsRowWeak, sortBy,
      insertBy, clamp01, qmin, qmax, cleanSnippet]

/-- Every result of `fuseResults` carries the closed-form fused score
determined by its 1-based ranks in the two (duplicate-free) input lists. -/
theorem fuseResults_score_eq (tr vr : List SRow)
    (hnt : (tr.map (fun r => r.id)).Nodup)
    (hnv : (vr.map (fun r => r.id)).Nodup) :
    ∀ e ∈ fuseResults tr vr,
      e.score = fusedScoreSpec (textRankOf tr e.id) (vectorRankOf vr e.id) := by
  intro e he
  simp only [fuseResults, List.mem_map] at he
  obtain ⟨en, hen, rfl⟩ := he
  rw [mem_sortBy] at hen
  obtain ⟨h1, h2, h3⟩ := fused_entry_fields hnt hnv en hen
  exact computeFinalScore_eq_spec h1 h2 h3

/-- C2: for duplicate-free keyword/vector result lists (the two SQL
sub-searches return each document id at most once), every result of
`fuseResults` carries the score
`clamp₀₁((2·1/(60+r_text) + 1·1/(60+r_vec)) × (1.2 if both) × (1.1 if some
rank is 1))` where `r_text`/`r_vec` are its 1-based ranks in the two input
lists. -/
theorem C2_fused_score_formula (tr vr : List SRow)
    (hnt : (tr.map (fun r => r.id)).Nodup)
    (hnv : (vr.map (fun r => r.id)).Nodup) :
    ∀ e ∈ fuseResults tr vr,
      e.score = fusedScoreSpec (textRankOf tr e.id) (vectorRankOf vr e.id) :=
  fuseResults_score_eq tr vr hnt hnv

/-- Witness for C2 at a concrete one-element keyword list. -/
theorem C2_fused_score_formula_witness :
    ({ sampleRowA with score := 11/305 } : SRow).score =
      fusedScoreSpec (textRankOf [sampleRowA] "a") (vectorRankOf [] "a") :=
  C2_fused_score_formula [sampleRowA] [] (by decide) (by decide)
    { sampleRowA with score := 11/305 }
    (by norm_num [fuseResults, fuseText, fuseVec, mapSet, mkTextEntry, sortBy,
      insertBy, computeFinalScore, qmin, qmax, sampleRowA])

/-- C3: a document present in both result lists is fused with a strictly
higher score than the same document would receive (at the same list ranks)
from the keyword list alone (`fuseResults tr []`) or from the vector list
alone (`fuseResults [] vr`). -/
theorem C3_both_lists_beat_single_list (tr vr : List SRow) (d : String)
    (hnt : (tr.map (fun r => r.id)).Nodup)
    (hnv : (vr.map (fun r => r.id)).Nodup)
    (hdt : d ∈ tr.map (fun r => r.id))
    (hdv : d ∈ vr.map (fun r => r.id)) :
    (∃ eb ∈ fuseResults tr vr, eb.id = d) ∧
    ∀ eb ∈ fuseResults tr vr, eb.id = d →
      (∀ ea ∈ fuseResults tr [], ea.id = d → ea.score < eb.score) ∧
      (∀ ev ∈ fuseResults [] vr, ev.id = d → ev.score < eb.score) := by
  obtain ⟨kt, hkt⟩ : ∃ kt, idxOf? d tr = some kt := by
    cases h : idxOf? d tr with
    | none => exact absurd hdt (idxOf?_eq_none_iff.mp h)
    | some kt => exact ⟨kt, rfl⟩
  obtain ⟨kv, hkv⟩ : ∃ kv, idxOf? d vr = some kv := by
    cases h : idxOf? d vr with
    | none => exact absurd hdv (idxOf?_eq_none_iff.mp h)
    | some kv => exact ⟨kv, rfl⟩
  refine ⟨exists_fused_entry_of_text hnt hnv hdt, ?_⟩
  intro eb hb hbid
  have hsb := fuseResults_score_eq tr vr hnt hnv eb hb
  rw [hbid, textRankOf, vectorRankOf, hkt, hkv] at hsb
  constructor
  · intro ea ha haid
    have hsa := fuseResults_score_eq tr [] hnt (by simp) ea ha
    rw [haid, textRankOf, vectorRankOf, hkt] at hsa
    have hnone : idxOf? d [] = none := rfl
    rw [hnone] at hsa
    rw [hsa, hsb]
    exact (fusedScoreSpec_both_strict kt kv).1
  · intro ev hv hvid
    have hsv := fuseResults_score_eq [] vr (by simp) hnv ev hv
    rw [hvid, textRankOf, vectorRankOf, hkv] at hsv
    have hnone : idxOf? d [] = none := rfl
    rw [hnone] at hsv
    rw [hsv, hsb]
    exact (fusedScoreSpec_both_strict kt kv).2

/-- Witness for C3: the same document at rank 1 of both synthetic lists. -/
theorem C3_both_lists_beat_single_list_witness :
    (∃ eb ∈ fuseResults [sampleRowA] [sampleRowA], eb.id = "a") ∧
    ∀ eb ∈ fuseResults [sampleRowA] [sampleRowA], eb.id = "a" →
      (∀ ea ∈ fuseResults [sampleRowA] [], ea.id = "a" → ea.score < eb.score) ∧
      (∀ ev ∈ fuseResults [] [sampleRowA], ev.id = "a" → ev.score < eb.score) :=
  C3_both_lists_beat_single_list [sampleRowA] [sampleRowA] "a"
    (by decide) (by decide) (by decide) (by decide)

/-- C4 (implicit): every fused score is at most `3/61 × 1.2 × 1.1`
(≈ 0.0649), so the upper clamp never binds and the fuse/filter/slice tail
of `hybridSearch` returns the empty list whenever `minScore ≥ 0.065`. -/
theorem C4_fused_score_bounded (tr vr : List SRow)
    (hnt : (tr.map (fun r => r.id)).Nodup)
    (hnv : (vr.map (fun r => r.id)).Nodup) :
    (∀ e ∈ fuseResults tr vr, e.score ≤ 3 / 61 * 1.2 * 1.1) ∧
    ∀ limit minScore, 13 / 200 ≤ minScore →
      hybridFuse tr vr limit minScore = [] := by
  have hb : ∀ e ∈ fuseResults tr vr, e.score ≤ 3 / 61 * 1.2 * 1.1 := by
    intro e he
    rw [fuseResults_score_eq tr vr hnt hnv e he]
    exact fusedScoreSpec_le_bound (validRank_textRankOf _ _)
      (validRank_vectorRankOf _ _)
  refine ⟨hb, ?_⟩
  intro limit minScore hms
  unfold hybridFuse
  have hfil : (fuseResults tr vr).filter
      (fun r => decide (r.score ≥ minScore)) = [] := by
    rw [List.filter_eq_nil_iff]
    intro e he
    simp only [decide_eq_true_eq, not_le, ge_iff_le]
    have h1 := hb e he
    have h2 : (3 : ℚ) / 61 * 1.2 * 1.1 < 13 / 200 := by norm_num
    linarith
  rw [hfil]
  simp

/-- Witness for C4 with a one-element keyword list. -/
theorem C4_fused_score_bounded_witness :
    (∀ e ∈ fuseResults [sampleRowA] [], e.score ≤ 3 / 61 * 1.2 * 1.1) ∧
    ∀ limit minScore, 13 / 200 ≤ minScore →
      hybridFuse [sampleRowA] [] limit minScore = [] :=
  C4_fused_score_bounded [sampleRowA] [] (by decide) (by decide)

/-! ## `src/embeddings.js` — `EmbeddingEngine`

The 384-dimensional feature vector is modelled as a function `Fin 384 → ℝ`;
JS in-place array writes become functional updates.  Three external library
calls are abstracted as function parameters: `natural`'s
`TfIdf.prototype.tfidf` (a function of the accumulated documents array, the
document index and the term), `natural.PorterStemmer.stem`, and the md5
bigram bucket hash `hashFeature`.  Everything else is translated from the
source. -/

/-- `preprocessText` (`embeddings.js` lines 51–57): lower-case, punctuation
(`[^\w\s]`) to spaces, whitespace runs to single spaces, trim. -/
def embPreprocess (s : String) : String :=
  collapseSpaces (String.mk ((s.data.map Char.toLower).map
    (fun c => if isWordChar c || isJsSpace c then c else ' ')))

/-- `natural.WordTokenizer` applied to the preprocessed text (lines 30–31):
the maximal `\w+` runs. -/
def tokenize (s : String) : List String :=
  (runsAux isWordChar [] (embPreprocess s).data).map (fun l => String.mk l)

/-- The 384-entry feature vector. -/
def Vec : Type := Fin 384 → ℝ

/-- Write `vector[i] = x` (in-bounds indices only ever occur). -/
def updateV (v : Vec) (i : ℕ) (x : ℝ) : Vec :=
  if h : i < 384 then Function.update v ⟨i, h⟩ x else v

/-- Read `vector[i]`. -/
def readV (v : Vec) (i : ℕ) : ℝ :=
  if h : i < 384 then v ⟨i, h⟩ else 0

/-- Keys of the `termFreq` map: stemmed tokens in first-occurrence order
(the loop at lines 74–80 reads only the keys). -/
def stemTerms (stem : String → String) (tokens : List String) : List String :=
  dedupFirst (tokens.map stem)

/-- TF-IDF block (lines 73–80): `vector[featureIndex] = tfidf(term)` for the
first 128 distinct stemmed terms. -/
def tfWrite (tfidf : String → ℝ) : List String → ℕ → Vec → Vec
  | [], _, v => v
  | t :: ts, i, v =>
    if i < 128 then tfWrite tfidf ts (i + 1) (updateV v i (tfidf t)) else v

/-- `generateNGrams(tokens, 2)` (lines 110–116): adjacent pairs joined by a
space. -/
def bigramsOf : List String → List String
  | a :: b :: rest => (a ++ " " ++ b) :: bigramsOf (b :: rest)
  | _ => []

/-- Bigram hash block (lines 82–90):
`vector[128 + hash(bigram) % 128] += 1 / bigrams.length`. -/
noncomputable def bigramAdd (hash : String → ℕ) (total : ℕ) :
    List String → Vec → Vec
  | [], v => v
  | b :: bs, v =>
    bigramAdd hash total bs
      (updateV v (128 + hash b % 128)
        (readV v (128 + hash b % 128) + 1 / (total : ℝ)))

/-- `generateCharFeatures` (lines 119–144) on the char list of
`tokens.join(' ')`: the ≤32 most frequent characters' relative frequencies
(stable sort, descending count), then length/1000, uppercase ratio, digit
ratio, whitespace ratio. -/
noncomputable def charFeatures (chars : List Char) : List ℝ :=
  let total := chars.length
  let sortedChars := sortBy (fun a b => decide (b.2 ≤ a.2))
    ((dedupFirst chars).map (fun c => (c, chars.count c)))
  ((sortedChars.take 32).map (fun p => (p.2 : ℝ) / (total : ℝ))) ++
    [(chars.length : ℝ) / 1000,
     ((chars.countP (fun c => decide ('A' ≤ c ∧ c ≤ 'Z')) : ℕ) : ℝ) / (total : ℝ),
     ((chars.countP (fun c => c.isDigit) : ℕ) : ℝ) / (total : ℝ),
     ((chars.countP isJsSpace : ℕ) : ℝ) / (total : ℝ)]

/-- Char block write (lines 92–97): `vector[256+i] = charFeatures[i]` for
`i < min(64, charFeatures.length)`. -/
noncomputable def charWrite : List ℝ → ℕ → Vec → Vec
  | [], _, v => v
  | x :: xs, i, v =>
    if i < 64 then charWrite xs (i + 1) (updateV v (256 + i) x) else v

/-- The if/else-if pseudo part-of-speech chain of lines 153–164:
`0` verb-like, `1` adjective-like, `2` noun-like, `3` other. -/
def posTag (t : String) : ℕ :=
  if ("ing".data.isSuffixOf t.data || "ed".data.isSuffixOf t.data ||
      "s".data.isSuffixOf t.data) then 0
  else if ("ly".data.isSuffixOf t.data || "al".data.isSuffixOf t.data ||
      "ful".data.isSuffixOf t.data) then 1
  else if (t.length > 4 && !("ly".data.isSuffixOf t.data)) then 2
  else 3

/-- `mean` (lines 202–204). -/
noncomputable def meanR (l : List ℝ) : ℝ := l.sum / (l.length : ℝ)

/-- `stddev` (lines 206–210). -/
noncomputable def stddevR (l : List ℝ) : ℝ :=
  Real.sqrt ((l.map (fun x => (x - meanR l) ^ 2)).sum / (l.length : ℝ))

/-- `generateSemanticFeatures` (lines 147–185): the four pseudo-POS ratios
(noun, verb, adj, other — pushed in that order), mean and standard
deviation of token lengths over 10, long-token ratio, lexical diversity. -/
noncomputable def semFeatures (tokens : List String) : List ℝ :=
  let totalTokens := tokens.length
  let lengths := tokens.map (fun t => (t.length : ℝ))
  [((tokens.countP (fun t => posTag t = 2) : ℕ) : ℝ) / (totalTokens : ℝ),
   ((tokens.countP (fun t => posTag t = 0) : ℕ) : ℝ) / (totalTokens : ℝ),
   ((tokens.countP (fun t => posTag t = 1) : ℕ) : ℝ) / (totalTokens : ℝ),
   ((tokens.countP (fun t => posTag t = 3) : ℕ) : ℝ) / (totalTokens : ℝ),
   meanR lengths / 10,
   stddevR lengths / 10,
   ((tokens.countP (fun t => t.length > 6) : ℕ) : ℝ) / (totalTokens : ℝ),
   (((dedupFirst tokens).length : ℕ) : ℝ) / (totalTokens : ℝ)]

/-- Semantic block write (lines 99–104): `vector[320+i] = semFeatures[i]`
for `i < min(64, semFeatures.length)`. -/
noncomputable def semWrite : List ℝ → ℕ → Vec → Vec
  | [], _, v => v
  | x :: xs, i, v =>
    if i < 64 then semWrite xs (i + 1) (updateV v (320 + i) x) else v

/-- `createFeatureVector` (lines 60–107): the four blocks written over a
zero-filled 384-entry array. -/
noncomputable def createFeatureVector (tfidf : String → ℝ) (hash : String → ℕ)
    (stem : String → String) (tokens : List String) : Vec :=
  let v0 : Vec := fun _ => 0
  let v1 := tfWrite tfidf (stemTerms stem tokens) 0 v0
  let bs := bigramsOf tokens
  let v2 := bigramAdd hash bs.length bs v1
  let v3 := charWrite (charFeatures (joinSp tokens).data) 0 v2
  semWrite (semFeatures tokens) 0 v3

/-- `vector.reduce((sum, val) => sum + val * val, 0)`. -/
noncomputable def sumSq (v : Vec) : ℝ := ∑ i : Fin 384, v i * v i

/-- The magnitude computed in `normalizeVector` (line 195), which is also
the L2 norm of a vector. -/
noncomputable def magnitudeOf (v : Vec) : ℝ := Real.sqrt (sumSq v)

/-- `normalizeVector` (lines 194–199): return the vector unmodified when
the magnitude is 0, else divide every entry by the magnitude. -/
noncomputable def normalizeVector (v : Vec) : Vec :=
  if magnitudeOf v = 0 then v else fun i => v i / magnitudeOf v

/-- `EmbeddingEngine.embed` (lines 24–48) as a state transformer over the
accumulated `this.tfidf.documents` array: tokenize; return the all-zero
vector on no tokens; otherwise `addDocument`, build the feature vector
against the enlarged corpus, `splice` the temporary document back out, and
L2-normalize.  `tfidf` receives the documents array and the document index
exactly as `this.tfidf.tfidf(term, docIndex)` does. -/
noncomputable def embedStep (tfidf : List (List String) → ℕ → String → ℝ)
    (hash : String → ℕ) (stem : String → String)
    (docs : List (List String)) (text : String) : Vec × List (List String) :=
  let tokens := tokenize text
  if tokens.isEmpty then (fun _ => 0, docs)
  else
    let docs1 := docs ++ [tokens]
    let docIndex := docs1.length - 1
    let v := createFeatureVector (tfidf docs1 docIndex) hash stem tokens
    (normalizeVector v, docs1.eraseIdx docIndex)

/-- The corpus state after embedding a batch of texts in order. -/
noncomputable def embedBatchState (tfidf : List (List String) → ℕ → String → ℝ)
    (hash : String → ℕ) (stem : String → String)
    (docs : List (List String)) (texts : List String) : List (List String) :=
  texts.foldl (fun s t => (embedStep tfidf hash stem s t).2) docs

/-! ### Block-preservation lemmas: no block other than the char block
writes index 256 -/

theorem readV_updateV_ne {v : Vec} {i j : ℕ} {x : ℝ} (h : i ≠ j) :
    readV (updateV v i x) j = readV v j := by
  unfold readV updateV
  by_cases hj : j < 384
  · rw [dif_pos hj, dif_pos hj]
    by_cases hi : i < 384
    · rw [dif_pos hi]
      exact Function.update_noteq (by simp only [ne_eq, Fin.mk.injEq]; omega) _ _
    · rw [dif_neg hi]
  · rw [dif_neg hj, dif_neg hj]

theorem readV_updateV_self {v : Vec} {i : ℕ} {x : ℝ} (h : i < 384) :
    readV (updateV v i x) i = x := by
  unfold readV updateV
  rw [dif_pos h, dif_pos h]
  exact Function.update_same _ _ _

theorem tfWrite_readV_high {tfidf : String → ℝ} {ts : List String} {i : ℕ}
    {v : Vec} {j : ℕ} (hj : 128 ≤ j) :
    readV (tfWrite tfidf ts i v) j = readV v j := by
  induction ts generalizing i v with
  | nil => rfl
  | cons t ts ih =>
    simp only [tfWrite]
    by_cases hi : i < 128
    · rw [if_pos hi, ih, readV_updateV_ne (by omega)]
    · rw [if_neg hi]

theorem bigramAdd_readV_out {hash : String → ℕ} {total : ℕ}
    {bs : List String} {v : Vec} {j : ℕ} (hj : j < 128 ∨ 256 ≤ j) :
    readV (bigramAdd hash total bs v) j = readV v j := by
  induction bs generalizing v with
  | nil => rfl
  | cons b bs ih =>
    simp only [bigramAdd]
    rw [ih, readV_updateV_ne]
    have := Nat.mod_lt (hash b) (show 0 < 128 by norm_num)
    omega

theorem charWrite_readV_low {feats : List ℝ} {i : ℕ} {v : Vec} {j : ℕ}
    (hj : j < 256 + i) : readV (charWrite feats i v) j = readV v j := by
  induction feats generalizing i v with
  | nil => rfl
  | cons x xs ih =>
    simp only [charWrite]
    by_cases hi : i < 64
    · rw [if_pos hi, ih (by omega), readV_updateV_ne (by omega)]
    · rw [if_neg hi]

theorem semWrite_readV_low {feats : List ℝ} {i : ℕ} {v : Vec} {j : ℕ}
    (hj : j < 320 + i) : readV (semWrite feats i v) j = readV v j := by
  induction feats generalizing i v with
  | nil => rfl
  | cons x xs ih =>
    simp only [semWrite]
    by_cases hi : i < 64
    · rw [if_pos hi, ih (by omega), readV_updateV_ne (by omega)]
    · rw [if_neg hi]

theorem charWrite_readV_first {x : ℝ} {xs : List ℝ} {v : Vec} :
    readV (charWrite (x :: xs) 0 v) 256 = x := by
  simp only [charWrite, if_pos (show (0:ℕ) < 64 by norm_num)]
  rw [charWrite_readV_low (by omega), readV_updateV_self (by omega)]

/-! ### The tokenizer produces nonempty tokens -/

theorem runsAux_ne_nil {p : Char → Bool} {l : List Char} {acc : List Char}
    {r : List Char} (h : r ∈ runsAux p acc l) : r ≠ [] := by
  induction l generalizing acc with
  | nil =>
    simp only [runsAux] at h
    by_cases ha : acc.isEmpty
    · simp [ha] at h
    · rw [if_neg ha, List.mem_singleton] at h
      subst h
      simp only [ne_eq, List.reverse_eq_nil_iff]
      exact fun hc => ha (by simp [hc])
  | cons c cs ih =>
    simp only [runsAux] at h
    by_cases hp : p c = true
    · rw [if_pos hp] at h
      exact ih h
    · rw [if_neg hp] at h
      by_cases ha : acc.isEmpty
      · rw [if_pos ha] at h
        exact ih h
      · rw [if_neg ha, List.mem_cons] at h
        rcases h with rfl | h
        · simp only [ne_eq, List.reverse_eq_nil_iff]
          exact fun hc => ha (by simp [hc])
        · exact ih h

theorem tokenize_mem_ne_empty {s : String} {t : String}
    (h : t ∈ tokenize s) : t.data ≠ [] := by
  simp only [tokenize, List.mem_map] at h
  obtain ⟨l, hl, rfl⟩ := h
  exact runsAux_ne_nil hl

theorem joinSp_length_ge {a : String} {l : List String} :
    a.length ≤ (joinSp (a :: l)).length := by
  cases l with
  | nil => simp [joinSp]
  | cons b r =>
    show a.length ≤ (a ++ " " ++ joinSp (b :: r)).length
    simp only [String.length_append]
    omega

/-! ### A nonzero coordinate of the feature vector -/

theorem charFeatures_head {chars : List Char} (h : chars ≠ []) :
    ∃ p rest, p ∈ (dedupFirst chars).map (fun c => (c, chars.count c)) ∧
      charFeatures chars = ((p.2 : ℝ) / (chars.length : ℝ)) :: rest := by
  have hdd : dedupFirst chars ≠ [] := by
    cases chars with
    | nil => exact absurd rfl h
    | cons c cs =>
      intro hc
      have : c ∈ dedupFirst (c :: cs) := mem_dedupFirst.mpr (by simp)
      rw [hc] at this
      exact absurd this (List.not_mem_nil c)
  have hlen : (sortBy (fun a b => decide (b.2 ≤ a.2))
      ((dedupFirst chars).map (fun c => (c, chars.count c)))).length ≠ 0 := by
    rw [length_sortBy, List.length_map]
    exact fun hc => hdd (List.length_eq_zero.mp hc)
  cases hs : sortBy (fun a b => decide (b.2 ≤ a.2))
      ((dedupFirst chars).map (fun c => (c, chars.count c))) with
  | nil => exact absurd (by rw [hs]; rfl) hlen
  | cons p ps =>
    refine ⟨p, (ps.take 31).map (fun q => (q.2 : ℝ) / (chars.length : ℝ)) ++
      [(chars.length : ℝ) / 1000,
       ((chars.countP (fun c => decide ('A' ≤ c ∧ c ≤ 'Z')) : ℕ) : ℝ) /
         (chars.length : ℝ),
       ((chars.countP (fun c => c.isDigit) : ℕ) : ℝ) / (chars.length : ℝ),
       ((chars.countP isJsSpace : ℕ) : ℝ) / (chars.length : ℝ)], ?_, ?_⟩
    · have : p ∈ sortBy (fun a b => decide (b.2 ≤ a.2))
          ((dedupFirst chars).map (fun c => (c, chars.count c))) := by
        rw [hs]; simp
      exact mem_sortBy.mp this
    · simp only [charFeatures, hs, List.take_succ_cons, List.map_cons,
        List.cons_append]

theorem charFeatures_head_pos {chars : List Char} {p : Char × ℕ}
    (hmem : p ∈ (dedupFirst chars).map (fun c => (c, chars.count c)))
    (hne : chars ≠ []) : 0 < (p.2 : ℝ) / (chars.length : ℝ) := by
  obtain ⟨c, hc, rfl⟩ := List.mem_map.mp hmem
  have hcm : c ∈ chars := mem_dedupFirst.mp hc
  have hcount : 0 < chars.count c := List.count_pos_iff.mpr hcm
  have hlen : 0 < chars.length := List.length_pos.mpr hne
  have h1 : (0 : ℝ) < (chars.count c : ℝ) := by exact_mod_cast hcount
  have h2 : (0 : ℝ) < (chars.length : ℝ) := by exact_mod_cast hlen
  exact div_pos h1 h2

theorem sumSq_pos_of_readV {v : Vec} (h : 0 < readV v 256) : 0 < sumSq v := by
  have h384 : (256 : ℕ) < 384 := by norm_num
  have hv : readV v 256 = v ⟨256, h384⟩ := dif_pos h384
  rw [hv] at h
  have hle : v ⟨256, h384⟩ * v ⟨256, h384⟩ ≤ sumSq v := by
    exact Finset.single_le_sum (fun i _ => mul_self_nonneg (v i))
      (Finset.mem_univ _)
  nlinarith

theorem magnitudeOf_normalize {v : Vec} (h : 0 < sumSq v) :
    magnitudeOf (normalizeVector v) = 1 := by
  have hm : 0 < magnitudeOf v := Real.sqrt_pos.mpr h
  have hm0 : magnitudeOf v ≠ 0 := ne_of_gt hm
  rw [normalizeVector, if_neg hm0]
  have hsum : sumSq (fun i => v i / magnitudeOf v) =
      sumSq v / (magnitudeOf v * magnitudeOf v) := by
    unfold sumSq
    rw [Finset.sum_div]
    apply Finset.sum_congr rfl
    intro i _
    field_simp
  have hmm : magnitudeOf v * magnitudeOf v = sumSq v :=
    Real.mul_self_sqrt (le_of_lt h)
  show magnitudeOf (fun i => v i / magnitudeOf v) = 1
  rw [show magnitudeOf (fun i => v i / magnitudeOf v) =
      Real.sqrt (sumSq (fun i => v i / magnitudeOf v)) from rfl,
    hsum, hmm, div_self (ne_of_gt h)]
  exact Real.sqrt_one

theorem createFeatureVector_readV_256 {tfidf : String → ℝ}
    {hash : String → ℕ} {stem : String → String} {tokens : List String}
    {f0 : ℝ} {rest : List ℝ}
    (hcf : charFeatures (joinSp tokens).data = f0 :: rest) :
    readV (createFeatureVector tfidf hash stem tokens) 256 = f0 := by
  unfold createFeatureVector
  rw [semWrite_readV_low (by omega), hcf, charWrite_readV_first]

/-- C7: embedding a text with at least one token yields a vector of L2 norm
exactly 1 (the model is exact-real, so "within 1e-6" holds with equality);
a text with no tokens yields the all-zero 384-entry vector, untouched by
normalization.  Holds for every TF-IDF weight function, bigram hash and
stemmer, and every accumulated corpus state. -/
theorem C7_embed_unit_norm_or_zero
    (tfidf : List (List String) → ℕ → String → ℝ) (hash : String → ℕ)
    (stem : String → String) (docs : List (List String)) (text : String) :
    (tokenize text ≠ [] →
      magnitudeOf (embedStep tfidf hash stem docs text).1 = 1) ∧
    (tokenize text = [] →
      (embedStep tfidf hash stem docs text).1 = fun _ => 0) := by
  constructor
  · intro hne
    have hEmpty : (tokenize text).isEmpty = false := by
      cases h : tokenize text with
      | nil => exact absurd h hne
      | cons a l => rfl
    have hstep : (embedStep tfidf hash stem docs text).1 =
        normalizeVector (createFeatureVector
          (tfidf (docs ++ [tokenize text]) ((docs ++ [tokenize text]).length - 1))
          hash stem (tokenize text)) := by
      simp [embedStep, hEmpty]
    rw [hstep]
    apply magnitudeOf_normalize
    apply sumSq_pos_of_readV
    have hchars : (joinSp (tokenize text)).data ≠ [] := by
      cases h : tokenize text with
      | nil => exact absurd h hne
      | cons t0 ts =>
        have ht0 : t0.data ≠ [] := tokenize_mem_ne_empty (by rw [h]; simp)
        have hlen : 0 < t0.length := by
          rw [String.length]
          exact List.length_pos.mpr ht0
        have hge : t0.length ≤ (joinSp (t0 :: ts)).length := joinSp_length_ge
        intro hc
        have : (joinSp (t0 :: ts)).length = 0 := by
          rw [String.length, hc]
          rfl
        omega
    obtain ⟨p, rest, hmem, hcf⟩ := charFeatures_head hchars
    rw [createFeatureVector_readV_256 hcf]
    exact charFeatures_head_pos hmem hchars
  · intro h0
    have hEmpty : (tokenize text).isEmpty = true := by rw [h0]; rfl
    simp [embedStep, hEmpty]

/-- Witness for C7 at a concrete two-word text. -/
theorem C7_embed_unit_norm_or_zero_witness :
    magnitudeOf (embedStep (fun _ _ _ => (0 : ℝ)) (fun _ => 0) (fun t => t)
      [] "hello world").1 = 1 :=
  (C7_embed_unit_norm_or_zero (fun _ _ _ => (0 : ℝ)) (fun _ => 0)
    (fun t => t) [] "hello world").1 (by decide)

theorem eraseIdx_append_last (l : List α) (x : α) :
    (l ++ [x]).eraseIdx l.length = l := by
  induction l with
  | nil => rfl
  | cons a as ih =>
    simp only [List.cons_append, List.length_cons, List.eraseIdx_cons_succ, ih]

/-- `embed` restores `this.tfidf.documents`: the temporary document pushed
by `addDocument` is spliced back out before returning. -/
theorem embedStep_state (tfidf : List (List String) → ℕ → String → ℝ)
    (hash : String → ℕ) (stem : String → String)
    (docs : List (List String)) (text : String) :
    (embedStep tfidf hash stem docs text).2 = docs := by
  by_cases h : (tokenize text).isEmpty
  · simp [embedStep, h]
  · simp only [embedStep, h, Bool.false_eq_true, if_false]
    have hl : (docs ++ [tokenize text]).length - 1 = docs.length := by
      simp
    rw [hl]
    exact eraseIdx_append_last docs (tokenize text)

theorem embedBatchState_eq (tfidf : List (List String) → ℕ → String → ℝ)
    (hash : String → ℕ) (stem : String → String)
    (docs : List (List String)) (texts : List String) :
    embedBatchState tfidf hash stem docs texts = docs := by
  induction texts generalizing docs with
  | nil => rfl
  | cons t ts ih =>
    show embedBatchState tfidf hash stem
      (embedStep tfidf hash stem docs t).2 ts = docs
    rw [embedStep_state]
    exact ih docs

/-- C8 (implicit): `embed` is free of cross-call interference — its
temporary TF-IDF document is removed before returning, so the corpus state
is restored exactly, and embedding the same text after any batch of other
embeddings yields the identical vector. -/
theorem C8_embed_no_cross_call_interference
    (tfidf : List (List String) → ℕ → String → ℝ) (hash : String → ℕ)
    (stem : String → String) (docs : List (List String))
    (texts : List String) (text : String) :
    (embedStep tfidf hash stem docs text).2 = docs ∧
    (embedStep tfidf hash stem (embedBatchState tfidf hash stem docs texts)
        text).1 = (embedStep tfidf hash stem docs text).1 := by
  refine ⟨embedStep_state tfidf hash stem docs text, ?_⟩
  rw [embedBatchState_eq]

/-! ## `src/simple-search.js` — `CollectionManager.generateDocumentId`

The id is `crypto.createHash('sha256')` over the file path followed by the
decimal modification time, hex-encoded and truncated to 8 characters
(lines 858–863).  SHA-256 (FIPS 180-4) is implemented below over byte
lists as naturals; 32-bit words are naturals reduced mod `2^32`.  The
round constants are derived, as in the standard, from the fractional parts
of the cube/square roots of the first 64/8 primes. -/

/-- Reduce to a 32-bit word. -/
def M32 (x : ℕ) : ℕ := x % 4294967296

/-- Right-rotation of a 32-bit word. -/
def rotr32 (n x : ℕ) : ℕ := x / 2 ^ n + x % 2 ^ n * 2 ^ (32 - n)

def shaXor3 (a b c : ℕ) : ℕ := (a ^^^ b) ^^^ c

/-- 32-bit complement. -/
def not32 (x : ℕ) : ℕ := x ^^^ 4294967295

def shaCh (e f g : ℕ) : ℕ := (e &&& f) ^^^ (not32 e &&& g)

def shaMaj (a b c : ℕ) : ℕ := ((a &&& b) ^^^ (a &&& c)) ^^^ (b &&& c)

def bsig0 (a : ℕ) : ℕ := shaXor3 (rotr32 2 a) (rotr32 13 a) (rotr32 22 a)

def bsig1 (e : ℕ) : ℕ := shaXor3 (rotr32 6 e) (rotr32 11 e) (rotr32 25 e)

def ssig0 (x : ℕ) : ℕ := shaXor3 (rotr32 7 x) (rotr32 18 x) (x / 2 ^ 3)

def ssig1 (x : ℕ) : ℕ := shaXor3 (rotr32 17 x) (rotr32 19 x) (x / 2 ^ 10)

/-- The first 64 primes, whose cube/square roots seed the SHA-256
constants. -/
def shaPrimes : List ℕ :=
  [2, 3, 5, 7, 11, 13, 17, 19, 23, 29, 31, 37, 41, 43, 47, 53, 59, 61, 67,
   71, 73, 79, 83, 89, 97, 101, 103, 107, 109, 113, 127, 131, 137, 139,
   149, 151, 157, 163, 167, 173, 179, 181, 191, 193, 197, 199, 211, 223,
   227, 229, 233, 239, 241, 251, 257, 263, 269, 271, 277, 281, 283, 293,
   307, 311]

/-- Integer cube root by binary descent (used only to derive constants). -/
def icbrt (n : ℕ) : ℕ :=
  (List.range 64).foldl
    (fun r i => let c := r + 2 ^ (63 - i); if c ^ 3 ≤ n then c else r) 0

/-- Round constants: fractional cube-root bits of the first 64 primes. -/
def shaK : List ℕ := shaPrimes.map (fun p => M32 (icbrt (p * 2 ^ 96)))

/-- Initial hash value: fractional square-root bits of the first 8
primes. -/
def shaH0 : List ℕ := (shaPrimes.take 8).map (fun p => M32 (Nat.sqrt (p * 2 ^ 64)))

/-- Standard padding: `0x80`, zeros to 56 mod 64, 8-byte big-endian bit
length. -/
def padMsg (msg : List ℕ) : List ℕ :=
  msg ++ [128] ++ List.replicate ((119 - msg.length % 64) % 64) 0 ++
    (List.range 8).map (fun i => 8 * msg.length / 2 ^ (8 * (7 - i)) % 256)

/-- Split into 64-byte blocks. -/
def chunkify (l : List ℕ) : List (List ℕ) :=
  if h : l.isEmpty then [] else l.take 64 :: chunkify (l.drop 64)
termination_by l.length
decreasing_by
  simp only [List.length_drop]
  have h1 : l ≠ [] := fun hc => by simp [hc] at h
  have h2 : 0 < l.length := List.length_pos.mpr h1
  omega

/-- Message-schedule extension from 16 to 64 words. -/
def extendW : ℕ → List ℕ → List ℕ
  | 0, w => w
  | n + 1, w =>
    extendW n (w ++ [M32 (w.getD (w.length - 16) 0 + ssig0 (w.getD (w.length - 15) 0)
      + w.getD (w.length - 7) 0 + ssig1 (w.getD (w.length - 2) 0))])

/-- One compression round on the eight-word working state. -/
def shaRound (w : List ℕ) (s : List ℕ) (i : ℕ) : List ℕ :=
  let a := s.getD 0 0
  let b := s.getD 1 0
  let c := s.getD 2 0
  let d := s.getD 3 0
  let e := s.getD 4 0
  let f := s.getD 5 0
  let g := s.getD 6 0
  let hh := s.getD 7 0
  let t1 := M32 (hh + bsig1 e + shaCh e f g + shaK.getD i 0 + w.getD i 0)
  let t2 := M32 (bsig0 a + shaMaj a b c)
  [M32 (t1 + t2), a, b, c, M32 (d + t1), e, f, g]

/-- Compression of one 64-byte block into the hash state. -/
def compress (h : List ℕ) (chunk : List ℕ) : List ℕ :=
  let w0 := (List.range 16).map (fun i =>
    chunk.getD (4 * i) 0 * 16777216 + chunk.getD (4 * i + 1) 0 * 65536 +
    chunk.getD (4 * i + 2) 0 * 256 + chunk.getD (4 * i + 3) 0)
  let w := extendW 48 w0
  let s := (List.range 64).foldl (shaRound w) h
  (List.range 8).map (fun i => M32 (h.getD i 0 + s.getD i 0))

/-- The eight 32-bit words of the digest. -/
def digestWords (msg : List ℕ) : List ℕ :=
  (chunkify (padMsg msg)).foldl compress shaH0

/-- Big-endian bytes of one word. -/
def wordBytes (w : ℕ) : List ℕ :=
  [w / 16777216 % 256, w / 65536 % 256, w / 256 % 256, w % 256]

/-- The 32-byte SHA-256 digest of a byte list.  (Checked against the FIPS
test vectors for `""`, `"abc"` and the fox pangram.) -/
def sha256Bytes (msg : List ℕ) : List ℕ :=
  ((digestWords msg).map wordBytes).flatten

def hexDigit (n : ℕ) : Char :=
  if n < 10 then Char.ofNat (48 + n) else Char.ofNat (87 + n)

def byteHex (b : ℕ) : List Char := [hexDigit (b / 16), hexDigit (b % 16)]

/-- `digest('hex')`. -/
def hexOfBytes (bs : List ℕ) : String := String.mk ((bs.map byteHex).flatten)

/-- UTF-8 bytes of a string (the sources only feed ASCII paths and decimal
digits, on which code points and UTF-8 bytes agree). -/
def strBytes (s : String) : List ℕ := s.data.map Char.toNat

/-- JS `String.prototype.substring(0, n)`. -/
def takeStr (s : String) (n : ℕ) : String := String.mk (s.data.take n)

/-- `CollectionManager.generateDocumentId` (`simple-search.js` lines
858–863): sha256 over path then decimal modified time, hex, first 8
characters. -/
def generateDocumentId (filePath : String) (modifiedTime : ℕ) : String :=
  takeStr (hexOfBytes (sha256Bytes (strBytes (filePath ++ Nat.repr modifiedTime)))) 8

theorem compress_length (h chunk : List ℕ) : (compress h chunk).length = 8 := by
  simp [compress]

theorem foldl_compress_length {chunks : List (List ℕ)} {h : List ℕ}
    (hh : h.length = 8) : (chunks.foldl compress h).length = 8 := by
  induction chunks generalizing h with
  | nil => exact hh
  | cons c cs ih => exact ih (compress_length h c)

theorem shaH0_length : shaH0.length = 8 := by
  rw [shaH0, List.length_map, List.length_take]
  decide

theorem digestWords_length (msg : List ℕ) : (digestWords msg).length = 8 :=
  foldl_compress_length shaH0_length

theorem flatten_wordBytes_length (l : List ℕ) :
    ((l.map wordBytes).flatten).length = 4 * l.length := by
  induction l with
  | nil => rfl
  | cons w ws ih =>
    simp only [List.map_cons, List.flatten_cons, List.length_append, ih,
      List.length_cons]
    simp [wordBytes]
    ring

theorem flatten_byteHex_length (l : List ℕ) :
    ((l.map byteHex).flatten).length = 2 * l.length := by
  induction l with
  | nil => rfl
  | cons b bs ih =>
    simp only [List.map_cons, List.flatten_cons, List.length_append, ih,
      List.length_cons]
    simp [byteHex]
    ring

theorem sha256Bytes_length (msg : List ℕ) : (sha256Bytes msg).length = 32 := by
  rw [sha256Bytes, flatten_wordBytes_length, digestWords_length]

theorem sha256Bytes_lt (msg : List ℕ) : ∀ b ∈ sha256Bytes msg, b < 256 := by
  intro b hb
  rw [sha256Bytes] at hb
  obtain ⟨bl, hbl, hbm⟩ := List.mem_flatten.mp hb
  obtain ⟨w, _, rfl⟩ := List.mem_map.mp hbl
  simp only [wordBytes, List.mem_cons, List.mem_singleton] at hbm
  rcases hbm with rfl | rfl | rfl | (rfl | h)
  · exact Nat.mod_lt _ (by norm_num)
  · exact Nat.mod_lt _ (by norm_num)
  · exact Nat.mod_lt _ (by norm_num)
  · exact Nat.mod_lt _ (by norm_num)
  · exact absurd h (List.not_mem_nil b)

theorem hexDigit_mem {n : ℕ} (h : n < 16) :
    hexDigit n ∈ ("0123456789abcdef").data := by
  interval_cases n <;> decide

/-- Every character of the id is a lowercase hex digit. -/
theorem generateDocumentId_hex_chars (p : String) (t : ℕ) :
    ∀ c ∈ (generateDocumentId p t).data, c ∈ ("0123456789abcdef").data := by
  intro c hc
  rw [generateDocumentId, takeStr] at hc
  have hc2 : c ∈ (hexOfBytes (sha256Bytes (strBytes (p ++ Nat.repr t)))).data :=
    List.mem_of_mem_take hc
  rw [hexOfBytes] at hc2
  obtain ⟨bl, hbl, hbm⟩ := List.mem_flatten.mp hc2
  obtain ⟨b, hbmem, rfl⟩ := List.mem_map.mp hbl
  have hb : b < 256 := sha256Bytes_lt _ b hbmem
  simp only [byteHex, List.mem_cons, List.mem_singleton] at hbm
  rcases hbm with rfl | (rfl | h)
  · exact hexDigit_mem (by omega)
  · exact hexDigit_mem (Nat.mod_lt _ (by norm_num))
  · exact absurd h (List.not_mem_nil c)

theorem generateDocumentId_length (p : String) (t : ℕ) :
    (generateDocumentId p t).length = 8 := by
  rw [generateDocumentId, takeStr]
  show ((hexOfBytes (sha256Bytes (strBytes (p ++ Nat.repr t)))).data.take 8).length = 8
  rw [List.length_take]
  rw [show (hexOfBytes (sha256Bytes (strBytes (p ++ Nat.repr t)))).data =
    (((sha256Bytes (strBytes (p ++ Nat.repr t))).map byteHex).flatten) from rfl]
  rw [flatten_byteHex_length, sha256Bytes_length]
  decide

/-- The id as a function of the four leading digest bytes. -/
def gidOfBytes (b1 b2 b3 b4 : ℕ) : String :=
  String.mk (byteHex b1 ++ byteHex b2 ++ byteHex b3 ++ byteHex b4)

theorem gid_eq_gidOfBytes (p : String) (t : ℕ) :
    generateDocumentId p t =
      gidOfBytes ((digestWords (strBytes (p ++ Nat.repr t))).getD 0 0 / 16777216 % 256)
        ((digestWords (strBytes (p ++ Nat.repr t))).getD 0 0 / 65536 % 256)
        ((digestWords (strBytes (p ++ Nat.repr t))).getD 0 0 / 256 % 256)
        ((digestWords (strBytes (p ++ Nat.repr t))).getD 0 0 % 256) := by
  have hlen := digestWords_length (strBytes (p ++ Nat.repr t))
  cases hdw : digestWords (strBytes (p ++ Nat.repr t)) with
  | nil => rw [hdw] at hlen; simp at hlen
  | cons w0 ws =>
    rw [generateDocumentId, takeStr]
    rw [show (hexOfBytes (sha256Bytes (strBytes (p ++ Nat.repr t)))).data =
      (((sha256Bytes (strBytes (p ++ Nat.repr t))).map byteHex).flatten) from rfl]
    rw [sha256Bytes, hdw]
    simp only [List.map_cons, List.flatten_cons, List.map_append,
      List.flatten_append]
    rw [show (wordBytes w0).map byteHex = [byteHex (w0 / 16777216 % 256),
      byteHex (w0 / 65536 % 256), byteHex (w0 / 256 % 256), byteHex (w0 % 256)]
      from rfl]
    rw [List.take_append_of_le_length (by simp [byteHex])]
    rw [List.take_of_length_le (by simp [byteHex])]
    simp only [gidOfBytes, List.getD_cons_zero, List.flatten]
    rfl

/-- C5 counterexample: the claim "changing only the modification time
yields a different id" is false as a universal statement — the id keeps
only 32 bits of the digest, and infinitely many modification times map
into those finitely many values, so two distinct times collide
(pigeonhole; no hash needs to be evaluated). -/
theorem C5_mtime_collision_exists :
    ¬ ∀ (p : String) (t₁ t₂ : ℕ), t₁ ≠ t₂ →
      generateDocumentId p t₁ ≠ generateDocumentId p t₂ := by
  intro hinj
  obtain ⟨t₁, t₂, hne, heq⟩ := Finite.exists_ne_map_eq_of_infinite
    (fun t : ℕ =>
      ((⟨(digestWords (strBytes ("a" ++ Nat.repr t))).getD 0 0 / 16777216 % 256,
          Nat.mod_lt _ (by norm_num)⟩ : Fin 256),
       (⟨(digestWords (strBytes ("a" ++ Nat.repr t))).getD 0 0 / 65536 % 256,
          Nat.mod_lt _ (by norm_num)⟩ : Fin 256),
       (⟨(digestWords (strBytes ("a" ++ Nat.repr t))).getD 0 0 / 256 % 256,
          Nat.mod_lt _ (by norm_num)⟩ : Fin 256),
       (⟨(digestWords (strBytes ("a" ++ Nat.repr t))).getD 0 0 % 256,
          Nat.mod_lt _ (by norm_num)⟩ : Fin 256)))
  refine hinj "a" t₁ t₂ hne ?_
  simp only [Prod.mk.injEq, Fin.mk.injEq] at heq
  obtain ⟨h1, h2, h3, h4⟩ := heq
  rw [gid_eq_gidOfBytes, gid_eq_gidOfBytes, h1, h2, h3, h4]

/-- C5 (amended): the document id is deterministic — identical
(path, modified-at) pairs give the identical id — and is the SHA-256 of
path followed by the decimal modified time, hex-encoded, truncated to
exactly 8 hex characters.  (The original claim's "a different
modification time always yields a different id" is refuted by
`C5_mtime_collision_exists`: a 32-bit truncation must collide.) -/
theorem C5_id_deterministic_8_hex (p₁ p₂ : String) (t₁ t₂ : ℕ) :
    (p₁ = p₂ → t₁ = t₂ → generateDocumentId p₁ t₁ = generateDocumentId p₂ t₂) ∧
    (generateDocumentId p₁ t₁).length = 8 ∧
    (∀ c ∈ (generateDocumentId p₁ t₁).data, c ∈ ("0123456789abcdef").data) ∧
    generateDocumentId p₁ t₁ =
      takeStr (hexOfBytes (sha256Bytes (strBytes (p₁ ++ Nat.repr t₁)))) 8 := by
  refine ⟨fun hp ht => by rw [hp, ht], generateDocumentId_length p₁ t₁,
    generateDocumentId_hex_chars p₁ t₁, rfl⟩

/-- Witness for C5 at a concrete path and time. -/
theorem C5_id_deterministic_8_hex_witness :
    (generateDocumentId "notes.md" 17 = generateDocumentId "notes.md" 17) ∧
    (generateDocumentId "notes.md" 17).length = 8 ∧
    (∀ c ∈ (generateDocumentId "notes.md" 17).data,
      c ∈ ("0123456789abcdef").data) ∧
    generateDocumentId "notes.md" 17 =
      takeStr (hexOfBytes (sha256Bytes (strBytes ("notes.md" ++ Nat.repr 17)))) 8 := by
  obtain ⟨h1, h2, h3, h4⟩ := C5_id_deterministic_8_hex "notes.md" "notes.md" 17 17
  exact ⟨h1 rfl rfl, h2, h3, h4⟩

/-! ## `src/simple-search.js` — `CollectionManager.parseMarkdownFile`
(lines 799–855) -/

/-- JS `content.split('\n')` (keeps empty pieces, keeps `\r`). -/
def splitNl : List Char → List (List Char)
  | [] => [[]]
  | c :: cs =>
    let r := splitNl cs
    if c = '\n' then [] :: r
    else
      match r with
      | [] => [[c]]
      | y :: ys => (c :: y) :: ys

def splitLinesStr (s : String) : List String :=
  (splitNl s.data).map (fun l => String.mk l)

/-- JS `Array.prototype.join('\n')`. -/
def joinNl : List String → String
  | [] => ""
  | [a] => a
  | a :: b :: rest => a ++ "\n" ++ joinNl (b :: rest)

/-- JS `String.prototype.trim` (ASCII whitespace). -/
def trimStr (s : String) : String :=
  String.mk (((s.data.dropWhile isJsSpace).reverse.dropWhile isJsSpace).reverse)

/-- `lines[i+1].trim().match(/^=+$/)`. -/
def eqLineTest (s : String) : Bool :=
  let t := (trimStr s).data
  !t.isEmpty && t.all (fun c => c = '=')

/-- The test of `line.match(/^title:\s*(.+)$/i)`: a case-insensitive
`title:` prefix with at least one further character (backtracking lets
`(.+)` absorb a trailing blank). -/
def titleKeyTest (line : String) : Bool :=
  decide ((line.data.take 6).map Char.toLower = ("title:").data) &&
    decide (6 < line.data.length)

/-- `line.replace(/^title:\s*/i, '').replace(/['"]/g, '')`. -/
def titleKeyValue (line : String) : String :=
  String.mk (((line.data.drop 6).dropWhile isJsSpace).filter
    (fun c => !(c = Char.ofNat 39 || c = '"')))

/-- The title-detection loop over the first five lines (lines 805–827):
`# ` heading and setext underline break with a content start; a
`title:` key records the title and keeps scanning. -/
def titleLoop (lines : List String) : ℕ → Option String → Option String × ℕ
  | i, acc =>
    if h : i < min 5 lines.length then
      let line := trimStr (lines.getD i "")
      if ("# ").data.isPrefixOf line.data then
        (some (trimStr (String.mk (line.data.drop 2))), i + 1)
      else if i + 1 < lines.length ∧ eqLineTest (lines.getD (i + 1) "") = true then
        (some line, i + 2)
      else if titleKeyTest line = true then
        titleLoop lines (i + 1) (some (titleKeyValue line))
      else titleLoop lines (i + 1) acc
    else (acc, 0)
termination_by i acc => min 5 lines.length - i
decreasing_by
  · omega
  · omega

/-- `path.basename`: the part after the last `/`. -/
def basenameChars (l : List Char) : List Char :=
  (l.reverse.takeWhile (fun c => c ≠ '/')).reverse

/-- Strip `path.extname` (the suffix from the last dot, unless the dot is
the leading character). -/
def dropExtChars (l : List Char) : List Char :=
  match l.reverse.findIdx? (fun c => c = '.') with
  | none => l
  | some k => if k + 1 < l.length then l.take (l.length - k - 1) else l

/-- `.replace(/\b\w/g, l => l.toUpperCase())`. -/
def capWordsAux (prevWord : Bool) : List Char → List Char
  | [] => []
  | c :: cs =>
    (if isWordChar c && !prevWord then c.toUpper else c) ::
      capWordsAux (isWordChar c) cs

/-- Fallback title from the file name (lines 830–834). -/
def fallbackTitle (filePath : String) : String :=
  String.mk (capWordsAux false
    ((dropExtChars (basenameChars filePath.data)).map
      (fun c => if c = '-' || c = '_' then ' ' else c)))

/-- `indexOf(pat, start)` over char lists. -/
def idxOfSubAux (pat : List Char) : ℕ → List Char → Option ℕ
  | i, [] => if pat.isEmpty then some i else none
  | i, c :: cs =>
    if pat.isPrefixOf (c :: cs) then some i else idxOfSubAux pat (i + 1) cs

def idxOfSub (l pat : List Char) (start : ℕ) : Option ℕ :=
  idxOfSubAux pat start (l.drop start)

/-- `.replace(/\r\n/g, '\n')`. -/
def rmCR : List Char → List Char
  | [] => []
  | [c] => [c]
  | c1 :: c2 :: rest =>
    if c1 = '\r' ∧ c2 = '\n' then '\n' :: rmCR rest
    else c1 :: rmCR (c2 :: rest)

/-- Length of the leading run of newlines, and the remainder. -/
def spanNl : List Char → ℕ × List Char
  | [] => (0, [])
  | c :: cs =>
    if c = '\n' then
      let r := spanNl cs
      (r.1 + 1, r.2)
    else (0, c :: cs)

theorem spanNl_length_le : ∀ l : List Char, (spanNl l).2.length ≤ l.length := by
  intro l
  induction l with
  | nil => simp [spanNl]
  | cons c cs ih =>
    by_cases h : c = '\n'
    · simp only [spanNl, if_pos h]
      exact le_trans ih (by simp)
    · simp [spanNl, if_neg h]

/-- `.replace(/\n{3,}/g, '\n\n')`. -/
def collapseNl (l : List Char) : List Char :=
  match l with
  | [] => []
  | '\n' :: rest =>
    let s := spanNl rest
    (if s.1 + 1 ≥ 3 then ['\n', '\n'] else List.replicate (s.1 + 1) '\n') ++
      collapseNl s.2
  | c :: rest => c :: collapseNl rest
termination_by l.length
decreasing_by
  · have := spanNl_length_le rest
    simp only [List.length_cons]
    omega
  · simp

/-- `[ \t]+$` with the `gm` flags: strip trailing spaces/tabs per line. -/
def stripTrailingWs (s : String) : String :=
  joinNl ((splitLinesStr s).map (fun ln =>
    String.mk ((ln.data.reverse.dropWhile (fun c => c = ' ' || c = '\t')).reverse)))

/-- `CollectionManager.parseMarkdownFile` (lines 799–855): title scan over
the first five lines with filename fallback (a falsy — empty — matched
title also falls back), frontmatter strip, line-ending normalization,
blank-line collapse, per-line trailing-whitespace strip, trim. -/
def parseMarkdownFile (content : String) (filePath : String) : String × String :=
  let lines := splitLinesStr content
  let scan := titleLoop lines 0 none
  let title := match scan.1 with
    | some s => if s = "" then fallbackTitle filePath else s
    | none => fallbackTitle filePath
  let clean0 := joinNl (lines.drop scan.2)
  let clean1 :=
    if ("---").data.isPrefixOf clean0.data then
      match idxOfSub clean0.data ("\n---").data 3 with
      | some e => String.mk (clean0.data.drop (e + 4))
      | none => clean0
    else clean0
  let clean2 := stripTrailingWs (String.mk (collapseNl (rmCR clean1.data)))
  (title, trimStr clean2)

/-! ## `src/simple-search.js` — `CollectionManager.indexCollection`
(lines 698–796)

The `documents` table is a list of rows; the glob result is a list of
file entries whose `stat`/`content` are `none` when `fs.statSync` /
`fs.readFileSync` throw for that file (those exceptions are what the
per-file `try/catch` swallows). -/

/-- A row of the `documents` table. -/
structure DocRow where
  id : String
  path : String
  title : String
  content : String
  collection : String
  size : ℕ
  modified_at : ℕ
deriving DecidableEq, Repr

/-- One glob-matched file: `stat = some (⌊mtimeMs⌋, size)`, `content` its
text; `none` components model the corresponding fs call throwing. -/
structure FileEnt where
  path : String
  stat : Option (ℕ × ℕ)
  content : Option String
deriving DecidableEq, Repr

/-- `DatabaseManager.addDocument`: `INSERT OR REPLACE` keyed on the id
primary key. -/
def addDocument (db : List DocRow) (d : DocRow) : List DocRow :=
  if db.any (fun x => x.id = d.id) then
    db.map (fun x => if x.id = d.id then d else x)
  else db ++ [d]

/-- `DatabaseManager.removeDocument`: `DELETE FROM documents WHERE id = ?`. -/
def removeDocument (db : List DocRow) (i : String) : List DocRow :=
  db.filter (fun x => ¬ (x.id = i))

/-- Bytewise lexicographic strict order on character lists (SQLite's
default BINARY collation for `ORDER BY path`). -/
def strLtB : List Char → List Char → Bool
  | [], [] => false
  | [], _ :: _ => true
  | _ :: _, [] => false
  | a :: as, b :: bs =>
    if a.toNat < b.toNat then true
    else if b.toNat < a.toNat then false
    else strLtB as bs

def strLeB (s t : String) : Bool := !(strLtB t.data s.data)

/-- `DatabaseManager.getDocumentsByCollection`:
`SELECT * FROM documents WHERE collection = ? ORDER BY path`. -/
def getDocumentsByCollection (db : List DocRow) (c : String) : List DocRow :=
  sortBy (fun a b => strLeB a.path b.path) (db.filter (fun d => d.collection = c))

/-- Accumulator of the per-file loop: the `processedPaths` set and the
`indexed`/`skipped` counters, plus the evolving documents table. -/
structure IdxAcc where
  seen : List String
  indexed : ℕ
  skipped : ℕ
  db : List DocRow
deriving DecidableEq, Repr

/-- The read/parse/store tail of the loop body (lines 744–762), entered
when the file is new or stale. -/
def tryIndexFile (collName : String) (acc : IdxAcc) (f : FileEnt)
    (seen1 : List String) (mt sz : ℕ) : IdxAcc :=
  match f.content with
  | none => { acc with seen := seen1 }
  | some content =>
    let tc := parseMarkdownFile content f.path
    let docId := generateDocumentId f.path mt
    { acc with
        seen := seen1,
        db := addDocument acc.db ⟨docId, f.path, tc.1, tc.2, collName, sz, mt⟩,
        indexed := acc.indexed + 1 }

/-- One iteration of the per-file loop (lines 730–771): the path is added
to `processedPaths` before `statSync`, so an erroring file still counts as
seen; a stored document with `modified_at ≥` the current mtime is skipped. -/
def indexStep (existingDocs : List DocRow) (collName : String)
    (acc : IdxAcc) (f : FileEnt) : IdxAcc :=
  let seen1 := insertSet acc.seen f.path
  match f.stat with
  | none => { acc with seen := seen1 }
  | some (mt, sz) =>
    match existingDocs.find? (fun d => d.path = f.path) with
    | some d =>
      if mt ≤ d.modified_at then
        { acc with seen := seen1, skipped := acc.skipped + 1 }
      else tryIndexFile collName acc f seen1 mt sz
    | none => tryIndexFile collName acc f seen1 mt sz

/-- `CollectionManager.indexCollection` (lines 698–796) for an existing
collection, over the glob result: the per-file loop, then deletion of the
first stored document of every stored path not seen in the pass; returns
`(indexed, skipped, removed)` and the resulting documents table. -/
def indexCollection (db : List DocRow) (c : String) (files : List FileEnt) :
    (ℕ × ℕ × ℕ) × List DocRow :=
  let existingDocs := getDocumentsByCollection db c
  let existingPaths := dedupFirst (existingDocs.map (fun d => d.path))
  let a := files.foldl (indexStep existingDocs c) ⟨[], 0, 0, db⟩
  let removedPaths := existingPaths.filter (fun p => decide (p ∉ a.seen))
  let db2 := removedPaths.foldl (fun dcur p =>
    match existingDocs.find? (fun d => d.path = p) with
    | some doc => removeDocument dcur doc.id
    | none => dcur) a.db
  ((a.indexed, a.skipped, removedPaths.length), db2)

/-- Should the loop skip this file (stored copy at least as new)? -/
def skipB (existingDocs : List DocRow) (f : FileEnt) : Bool :=
  match f.stat with
  | none => false
  | some (mt, _) =>
    match existingDocs.find? (fun d => d.path = f.path) with
    | some d => decide (mt ≤ d.modified_at)
    | none => false

/-- Does the loop index (store) this file? -/
def indexB (existingDocs : List DocRow) (f : FileEnt) : Bool :=
  match f.stat with
  | none => false
  | some (mt, _) =>
    (match existingDocs.find? (fun d => d.path = f.path) with
     | some d => decide (d.modified_at < mt)
     | none => true) && f.content.isSome

/-- Counters-and-table view of the accumulator (everything except the
seen-set). -/
def accCore (a : IdxAcc) : ℕ × ℕ × List DocRow := (a.indexed, a.skipped, a.db)

theorem tryIndexFile_seen (cn : String) (acc : IdxAcc) (f : FileEnt)
    (seen1 : List String) (mt sz : ℕ) :
    (tryIndexFile cn acc f seen1 mt sz).seen = seen1 := by
  cases hc : f.content <;> simp [tryIndexFile, hc]

theorem indexStep_seen (ex : List DocRow) (cn : String) (acc : IdxAcc)
    (f : FileEnt) :
    (indexStep ex cn acc f).seen = insertSet acc.seen f.path := by
  unfold indexStep
  cases hs : f.stat with
  | none => rfl
  | some p =>
    obtain ⟨mt, sz⟩ := p
    cases hf : ex.find? (fun d => d.path = f.path) with
    | none => exact tryIndexFile_seen cn acc f _ mt sz
    | some d =>
      by_cases hle : mt ≤ d.modified_at
      · simp [hle]
      · simp only [if_neg hle]
        exact tryIndexFile_seen cn acc f _ mt sz

theorem tryIndexFile_core {acc₁ acc₂ : IdxAcc} (cn : String) (f : FileEnt)
    (s1 s2 : List String) (mt sz : ℕ) (h : accCore acc₁ = accCore acc₂) :
    accCore (tryIndexFile cn acc₁ f s1 mt sz) =
      accCore (tryIndexFile cn acc₂ f s2 mt sz) := by
  have hi : acc₁.indexed = acc₂.indexed := congrArg Prod.fst h
  have hk : acc₁.skipped = acc₂.skipped := congrArg (fun x => x.2.1) h
  have hd : acc₁.db = acc₂.db := congrArg (fun x => x.2.2) h
  cases hc : f.content <;> simp [tryIndexFile, hc, accCore, hi, hk, hd]

theorem indexStep_core {acc₁ acc₂ : IdxAcc} (ex : List DocRow) (cn : String)
    (f : FileEnt) (h : accCore acc₁ = accCore acc₂) :
    accCore (indexStep ex cn acc₁ f) = accCore (indexStep ex cn acc₂ f) := by
  have hi : acc₁.indexed = acc₂.indexed := congrArg Prod.fst h
  have hk : acc₁.skipped = acc₂.skipped := congrArg (fun x => x.2.1) h
  have hd : acc₁.db = acc₂.db := congrArg (fun x => x.2.2) h
  unfold indexStep
  cases hs : f.stat with
  | none => simp [accCore, hi, hk, hd]
  | some p =>
    obtain ⟨mt, sz⟩ := p
    cases hf : ex.find? (fun d => d.path = f.path) with
    | none => exact tryIndexFile_core cn f _ _ mt sz h
    | some d =>
      by_cases hle : mt ≤ d.modified_at
      · simp [hle, accCore, hi, hk, hd]
      · simp only [if_neg hle]
        exact tryIndexFile_core cn f _ _ mt sz h

theorem foldl_indexStep_core (ex : List DocRow) (cn : String)
    (l : List FileEnt) :
    ∀ {acc₁ acc₂ : IdxAcc}, accCore acc₁ = accCore acc₂ →
      accCore (l.foldl (indexStep ex cn) acc₁) =
        accCore (l.foldl (indexStep ex cn) acc₂) := by
  induction l with
  | nil => exact fun h => h
  | cons f fs ih =>
    intro acc₁ acc₂ h
    exact ih (indexStep_core ex cn f h)

theorem foldl_indexStep_seen (ex : List DocRow) (cn : String)
    (l : List FileEnt) :
    ∀ (acc : IdxAcc) (x : String),
      x ∈ (l.foldl (indexStep ex cn) acc).seen ↔
        x ∈ acc.seen ∨ x ∈ l.map (fun f => f.path) := by
  induction l with
  | nil => simp
  | cons f fs ih =>
    intro acc x
    rw [List.foldl_cons, ih, indexStep_seen, mem_insertSet]
    simp only [List.map_cons, List.mem_cons]
    tauto

theorem indexStep_skipped (ex : List DocRow) (cn : String) (acc : IdxAcc)
    (f : FileEnt) :
    (indexStep ex cn acc f).skipped =
      acc.skipped + (if skipB ex f then 1 else 0) := by
  unfold indexStep skipB
  cases hs : f.stat with
  | none => simp
  | some p =>
    obtain ⟨mt, sz⟩ := p
    cases hf : ex.find? (fun d => d.path = f.path) with
    | none =>
      simp only []
      cases hc : f.content <;> simp [tryIndexFile, hc]
    | some d =>
      by_cases hle : mt ≤ d.modified_at
      · simp [hle]
      · simp only [if_neg hle, decide_eq_true_eq, hle, if_false]
        cases hc : f.content <;> simp [tryIndexFile, hc]

theorem indexStep_indexed (ex : List DocRow) (cn : String) (acc : IdxAcc)
    (f : FileEnt) :
    (indexStep ex cn acc f).indexed =
      acc.indexed + (if indexB ex f then 1 else 0) := by
  unfold indexStep indexB
  cases hs : f.stat with
  | none => simp
  | some p =>
    obtain ⟨mt, sz⟩ := p
    cases hf : ex.find? (fun d => d.path = f.path) with
    | none =>
      simp only [Bool.true_and]
      cases hc : f.content <;> simp [tryIndexFile, hc]
    | some d =>
      by_cases hle : mt ≤ d.modified_at
      · have : ¬ d.modified_at < mt := by omega
        simp [hle, this]
      · have hlt : d.modified_at < mt := by omega
        simp only [if_neg hle, hlt, decide_eq_true_eq, Bool.true_and]
        cases hc : f.content <;> simp [tryIndexFile, hc]

theorem foldl_indexStep_skipped (ex : List DocRow) (cn : String)
    (l : List FileEnt) :
    ∀ acc : IdxAcc,
      (l.foldl (indexStep ex cn) acc).skipped =
        acc.skipped + l.countP (skipB ex) := by
  induction l with
  | nil => simp
  | cons f fs ih =>
    intro acc
    rw [List.foldl_cons, ih, indexStep_skipped, List.countP_cons]
    by_cases h : skipB ex f <;> simp [h] <;> omega

theorem foldl_indexStep_indexed (ex : List DocRow) (cn : String)
    (l : List FileEnt) :
    ∀ acc : IdxAcc,
      (l.foldl (indexStep ex cn) acc).indexed =
        acc.indexed + l.countP (indexB ex) := by
  induction l with
  | nil => simp
  | cons f fs ih =>
    intro acc
    rw [List.foldl_cons, ih, indexStep_indexed, List.countP_cons]
    by_cases h : indexB ex f <;> simp [h] <;> omega

theorem indexStep_db_of_not_index (ex : List DocRow) (cn : String)
    (acc : IdxAcc) (f : FileEnt) (h : indexB ex f = false) :
    (indexStep ex cn acc f).db = acc.db := by
  unfold indexB at h
  unfold indexStep
  cases hs : f.stat with
  | none => rfl
  | some p =>
    obtain ⟨mt, sz⟩ := p
    rw [hs] at h
    cases hf : ex.find? (fun d => d.path = f.path) with
    | none =>
      rw [hf] at h
      simp only [Bool.true_and] at h
      cases hc : f.content with
      | none => simp [tryIndexFile, hc]
      | some content => rw [hc] at h; simp at h
    | some d =>
      rw [hf] at h
      by_cases hle : mt ≤ d.modified_at
      · simp [hle]
      · have hlt : d.modified_at < mt := by omega
        simp only [hlt, decide_eq_true_eq, Bool.true_and] at h
        simp only [if_neg hle]
        cases hc : f.content with
        | none => simp [tryIndexFile, hc]
        | some content => rw [hc] at h; simp at h

theorem foldl_indexStep_db_all_skip (ex : List DocRow) (cn : String)
    (l : List FileEnt) :
    ∀ acc : IdxAcc, (∀ f ∈ l, indexB ex f = false) →
      (l.foldl (indexStep ex cn) acc).db = acc.db := by
  induction l with
  | nil => intro acc _; rfl
  | cons f fs ih =>
    intro acc hall
    rw [List.foldl_cons, ih _ (fun g hg => hall g (by simp [hg])),
      indexStep_db_of_not_index ex cn acc f (hall f (by simp))]

/-- C9: a per-file error never aborts the scan.  A file whose `statSync`
throws (modelled `stat = none`) is caught by the per-file `try/catch`:
every other file is still processed, the counts are still returned, and —
as long as no stored document of the collection sits at the erroring path —
the result is exactly that of the scan without the erroring file. -/
theorem C9_per_file_error_isolated (db : List DocRow) (c : String)
    (pre post : List FileEnt) (bad : FileEnt)
    (hstat : bad.stat = none)
    (hpath : ∀ d ∈ db, d.collection = c → d.path ≠ bad.path) :
    indexCollection db c (pre ++ bad :: post) =
      indexCollection db c (pre ++ post) := by
  simp only [indexCollection]
  set ex := getDocumentsByCollection db c with hexdef
  set a0 : IdxAcc := ⟨[], 0, 0, db⟩ with ha0
  set aL := (pre ++ bad :: post).foldl (indexStep ex c) a0 with haL
  set aR := (pre ++ post).foldl (indexStep ex c) a0 with haR
  have hbadstep : indexStep ex c (pre.foldl (indexStep ex c) a0) bad =
      { pre.foldl (indexStep ex c) a0 with
          seen := insertSet (pre.foldl (indexStep ex c) a0).seen bad.path } := by
    unfold indexStep
    rw [hstat]
  have hceq : accCore (indexStep ex c (pre.foldl (indexStep ex c) a0) bad) =
      accCore (pre.foldl (indexStep ex c) a0) := by
    rw [hbadstep]
    rfl
  have hcore : accCore aL = accCore aR := by
    rw [haL, haR, List.foldl_append, List.foldl_append, List.foldl_cons]
    exact foldl_indexStep_core ex c post hceq
  have hseen : ∀ p : String, p ≠ bad.path → (p ∈ aL.seen ↔ p ∈ aR.seen) := by
    intro p hne
    rw [haL, haR, foldl_indexStep_seen, foldl_indexStep_seen]
    simp only [List.map_append, List.map_cons, List.mem_append, List.mem_cons]
    constructor
    · rintro (h | h)
      · exact Or.inl h
      · rcases h with h | (h | h)
        · exact Or.inr (Or.inl h)
        · exact absurd h hne
        · exact Or.inr (Or.inr h)
    · rintro (h | h)
      · exact Or.inl h
      · rcases h with h | h
        · exact Or.inr (Or.inl h)
        · exact Or.inr (Or.inr (Or.inr h))
  have hi : aL.indexed = aR.indexed := congrArg Prod.fst hcore
  have hk : aL.skipped = aR.skipped := congrArg (fun x => x.2.1) hcore
  have hd : aL.db = aR.db := congrArg (fun x => x.2.2) hcore
  have hrp : (dedupFirst (ex.map (fun d => d.path))).filter
        (fun p => decide (p ∉ aL.seen)) =
      (dedupFirst (ex.map (fun d => d.path))).filter
        (fun p => decide (p ∉ aR.seen)) := by
    apply List.filter_congr
    intro p hp
    have hpd : p ∈ ex.map (fun d => d.path) := mem_dedupFirst.mp hp
    obtain ⟨d, hdm, rfl⟩ := List.mem_map.mp hpd
    have hdm2 : d ∈ db.filter (fun x => decide (x.collection = c)) := by
      have := hdm
      rw [hexdef] at this
      exact mem_sortBy.mp this
    rw [List.mem_filter] at hdm2
    have hne := hpath d hdm2.1 (by simpa using hdm2.2)
    have hiff := hseen d.path hne
    simp only [hiff]
  rw [hi, hk, hrp, hd]

/-- A file whose `statSync` throws. -/
def errFile : FileEnt := ⟨"bad.md", none, none⟩

/-- An ordinary small file. -/
def goodFile : FileEnt := ⟨"good.md", some (5, 10), some "hello"⟩

/-- Witness for C9: with an empty store, scanning a good file plus an
erroring file equals scanning the good file alone. -/
theorem C9_per_file_error_isolated_witness :
    indexCollection [] "c" ([goodFile] ++ errFile :: []) =
      indexCollection [] "c" ([goodFile] ++ []) :=
  C9_per_file_error_isolated [] "c" [goodFile] [] errFile (by decide)
    (by intro d hd; exact absurd hd (List.not_mem_nil d))

theorem perm_insertBy {le : α → α → Bool} {x : α} {l : List α} :
    List.Perm (insertBy le x l) (x :: l) := by
  induction l with
  | nil => rfl
  | cons y ys ih =>
    simp only [insertBy]
    by_cases h : le x y = true
    · rw [if_pos h]
    · rw [if_neg h]
      exact (ih.cons y).trans (List.Perm.swap x y ys)

theorem perm_sortBy {le : α → α → Bool} {l : List α} :
    List.Perm (sortBy le l) l := by
  induction l with
  | nil => rfl
  | cons y ys ih =>
    exact (perm_insertBy).trans (ih.cons y)

theorem nodup_paths_getDocs {db : List DocRow} {c : String}
    (hN : ((db.filter (fun d => d.collection = c)).map (fun d => d.path)).Nodup) :
    ((getDocumentsByCollection db c).map (fun d => d.path)).Nodup := by
  have hperm : List.Perm ((getDocumentsByCollection db c).map (fun d => d.path))
      ((db.filter (fun d => decide (d.collection = c))).map (fun d => d.path)) :=
    List.Perm.map _ perm_sortBy
  exact hperm.nodup_iff.mpr hN

theorem find?_path_eq_some {ex : List DocRow} {d : DocRow}
    (hmem : d ∈ ex) (hN : (ex.map (fun x => x.path)).Nodup) :
    ex.find? (fun x => x.path = d.path) = some d := by
  induction ex with
  | nil => exact absurd hmem (List.not_mem_nil d)
  | cons x xs ih =>
    simp only [List.map_cons, List.nodup_cons] at hN
    rcases List.mem_cons.mp hmem with rfl | hmem'
    · simp [List.find?_cons]
    · have hne : x.path ≠ d.path := by
        intro hc
        exact hN.1 (hc ▸ List.mem_map.mpr ⟨d, hmem', rfl⟩)
      have hb : (decide (x.path = d.path)) = false := by simp [hne]
      simp only [List.find?_cons, hb]
      exact ih hmem' hN.2

/-- Membership after the removal pass (lines 777–791): a surviving row was
there before and its id differs from every removed document's id. -/
theorem mem_removalFold (ex : List DocRow) :
    ∀ (l : List String) (dbb : List DocRow) (x : DocRow),
      x ∈ l.foldl (fun dcur p =>
        match ex.find? (fun d => d.path = p) with
        | some doc => removeDocument dcur doc.id
        | none => dcur) dbb →
      x ∈ dbb ∧ ∀ p ∈ l, ∀ doc, ex.find? (fun d => d.path = p) = some doc →
        x.id ≠ doc.id := by
  intro l
  induction l with
  | nil =>
    intro dbb x hx
    exact ⟨hx, by simp⟩
  | cons p ps ih =>
    intro dbb x hx
    rw [List.foldl_cons] at hx
    cases hf : ex.find? (fun d => d.path = p) with
    | none =>
      rw [hf] at hx
      obtain ⟨h1, h2⟩ := ih _ x hx
      refine ⟨h1, ?_⟩
      intro q hq doc hdoc
      rcases List.mem_cons.mp hq with rfl | hq'
      · rw [hdoc] at hf
        exact absurd hf (by simp)
      · exact h2 q hq' doc hdoc
    | some doc0 =>
      rw [hf] at hx
      obtain ⟨h1, h2⟩ := ih _ x hx
      unfold removeDocument at h1
      rw [List.mem_filter] at h1
      refine ⟨h1.1, ?_⟩
      intro q hq doc hdoc
      rcases List.mem_cons.mp hq with rfl | hq'
      · rw [hf] at hdoc
        injection hdoc with hdoc
        subst hdoc
        simpa using h1.2
      · exact h2 q hq' doc hdoc

theorem skipB_imp_not_indexB {ex : List DocRow} {f : FileEnt}
    (h : skipB ex f = true) : indexB ex f = false := by
  unfold skipB at h
  unfold indexB
  cases hs : f.stat with
  | none => rfl
  | some p =>
    obtain ⟨mt, sz⟩ := p
    rw [hs] at h
    cases hf : ex.find? (fun d => d.path = f.path) with
    | none => rw [hf] at h; simp at h
    | some d =>
      rw [hf] at h
      simp only [decide_eq_true_eq] at h
      have : ¬ d.modified_at < mt := by omega
      simp [this]

/-! ## C6 -/

/-- Two stored rows at the same path (reachable because ids are keyed on
(path, mtime): a re-index after an mtime change stores a fresh id while the
stale row stays). -/
def dupDocA : DocRow := ⟨"ida", "p", "T", "", "c", 1, 100⟩

def dupDocB : DocRow := ⟨"idb", "p", "T", "", "c", 1, 100⟩

/-- C6 counterexample: with two stored rows at the same path and an empty
glob result, the removal pass deletes only the first row at the unseen
path (`find?` in line 781 returns one document per path), so the second
previously stored document at an unseen path survives the pass — the
claimed "deletes every previously stored document whose path was not seen"
is false verbatim. -/
theorem C6_duplicate_path_survives :
    dupDocB ∈ [dupDocA, dupDocB] ∧
    (∀ f ∈ ([] : List FileEnt), f.path ≠ dupDocB.path) ∧
    dupDocB ∈ (indexCollection [dupDocA, dupDocB] "c" []).2 ∧
    (indexCollection [dupDocA, dupDocB] "c" []).1 = (0, 0, 1) := by
  decide

/-- C6 (amended to stored tables with duplicate-free paths per collection):
skipped counts exactly the files whose stored copy is current, indexed
counts the files actually stored, removed counts the stored paths not in
the glob result, stored documents of the collection at unseen paths are
deleted, and a pass in which every file is skipped and every stored path
reappears returns `(0, |files|, 0)` with the table unchanged. -/
theorem C6_index_counts_removal_idempotent (db : List DocRow) (c : String)
    (files : List FileEnt)
    (hN : ((db.filter (fun d => d.collection = c)).map (fun d => d.path)).Nodup) :
    (indexCollection db c files).1.2.1 =
      files.countP (skipB (getDocumentsByCollection db c)) ∧
    (indexCollection db c files).1.1 =
      files.countP (indexB (getDocumentsByCollection db c)) ∧
    (indexCollection db c files).1.2.2 =
      ((dedupFirst ((getDocumentsByCollection db c).map (fun d => d.path))).filter
        (fun p => decide (¬ ∃ f ∈ files, f.path = p))).length ∧
    (∀ d ∈ db, d.collection = c → (∀ f ∈ files, f.path ≠ d.path) →
      d ∉ (indexCollection db c files).2) ∧
    ((∀ f ∈ files, skipB (getDocumentsByCollection db c) f = true) →
     (∀ d ∈ db, d.collection = c → ∃ f ∈ files, f.path = d.path) →
      indexCollection db c files = ((0, files.length, 0), db)) := by
  simp only [indexCollection]
  set ex := getDocumentsByCollection db c with hexdef
  set a := files.foldl (indexStep ex c) ⟨[], 0, 0, db⟩ with ha
  have hseen : ∀ p : String, p ∈ a.seen ↔ ∃ f ∈ files, f.path = p := by
    intro p
    rw [ha, foldl_indexStep_seen]
    simp [List.mem_map]
  refine ⟨?_, ?_, ?_, ?_, ?_⟩
  · show a.skipped = files.countP (skipB ex)
    rw [ha, foldl_indexStep_skipped]
    simp
  · show a.indexed = files.countP (indexB ex)
    rw [ha, foldl_indexStep_indexed]
    simp
  · show ((dedupFirst (ex.map (fun d => d.path))).filter
        (fun p => decide (p ∉ a.seen))).length = _
    congr 1
    apply List.filter_congr
    intro p hp
    exact decide_eq_decide.mpr (not_congr (hseen p))
  · intro d hdb hcol hnofile hdmem
    obtain ⟨h1, h2⟩ := mem_removalFold ex _ _ d hdmem
    have hdex : d ∈ ex := by
      rw [hexdef, getDocumentsByCollection, mem_sortBy]
      exact List.mem_filter.mpr ⟨hdb, by simp [hcol]⟩
    have hdpath : d.path ∈ dedupFirst (ex.map (fun x => x.path)) :=
      mem_dedupFirst.mpr (List.mem_map.mpr ⟨d, hdex, rfl⟩)
    have hnseen : d.path ∉ a.seen := by
      rw [hseen]
      rintro ⟨f, hf, hfp⟩
      exact hnofile f hf hfp
    have hrp : d.path ∈ (dedupFirst (ex.map (fun x => x.path))).filter
        (fun p => decide (p ∉ a.seen)) :=
      List.mem_filter.mpr ⟨hdpath, by simp [hnseen]⟩
    have hfind : ex.find? (fun x => x.path = d.path) = some d :=
      find?_path_eq_some hdex (nodup_paths_getDocs hN)
    exact (h2 d.path hrp d hfind) rfl
  · intro H2 H3
    have hrp : (dedupFirst (ex.map (fun d => d.path))).filter
        (fun p => decide (p ∉ a.seen)) = [] := by
      rw [List.filter_eq_nil_iff]
      intro p hp
      simp only [decide_eq_true_eq, not_not]
      rw [mem_dedupFirst, List.mem_map] at hp
      obtain ⟨d, hdex, rfl⟩ := hp
      rw [hexdef, getDocumentsByCollection, mem_sortBy, List.mem_filter] at hdex
      have hcol : d.collection = c := by simpa using hdex.2
      obtain ⟨f, hf, hfp⟩ := H3 d hdex.1 hcol
      rw [hseen]
      exact ⟨f, hf, hfp⟩
    have hnoidx : ∀ f ∈ files, indexB ex f = false :=
      fun f hf => skipB_imp_not_indexB (H2 f hf)
    have hdb : a.db = db := by
      rw [ha]
      exact foldl_indexStep_db_all_skip ex c files _ hnoidx
    have hidx : a.indexed = 0 := by
      rw [ha, foldl_indexStep_indexed]
      simp only [Nat.zero_add]
      exact List.countP_eq_zero.mpr (by
        intro f hf
        simp [hnoidx f hf])
    have hskp : a.skipped = files.length := by
      rw [ha, foldl_indexStep_skipped]
      simp only [Nat.zero_add]
      exact List.countP_eq_length.mpr (by
        intro f hf
        simp [H2 f hf])
    rw [hrp]
    simp [hidx, hskp, hdb]

def idemDoc : DocRow := ⟨"i1", "p1", "T", "x", "c", 3, 50⟩

def idemFile : FileEnt := ⟨"p1", some (50, 3), some "x"⟩

/-- Witness for C6: one stored document, one unchanged file — the pass
returns `(0, 1, 0)` and leaves the table unchanged. -/
theorem C6_index_counts_removal_idempotent_witness :
    indexCollection [idemDoc] "c" [idemFile] = ((0, 1, 0), [idemDoc]) :=
  ((C6_index_counts_removal_idempotent [idemDoc] "c" [idemFile]
      (by decide)).2.2.2.2) (by decide) (by decide)

/-! ## `src/simple-search.js` — `CollectionManager.remove` (lines 656–665),
`DatabaseManager.removeCollection` (496–500) and `cleanup` (524–533)

The three tables of the database are lists of rows; a prepared DELETE
returns its `changes` count. -/

/-- A row of the `collections` table. -/
structure CollRow where
  name : String
  path : String
  mask : String
deriving DecidableEq, Repr

/-- A row of the `embeddings` table. -/
structure EmbRow where
  document_id : String
  vector : String
deriving DecidableEq, Repr

structure DbState where
  collections : List CollRow
  documents : List DocRow
  embeddings : List EmbRow
deriving DecidableEq, Repr

/-- `DELETE FROM collections WHERE name = ?` with its `changes` count. -/
def removeCollectionRun (st : DbState) (name : String) : ℕ × DbState :=
  ((st.collections.filter (fun cr => cr.name = name)).length,
   { st with collections := st.collections.filter (fun cr => ¬ cr.name = name) })

/-- `DatabaseManager.cleanup`: delete documents whose collection name no
longer exists, then embeddings whose `document_id` no longer exists. -/
def cleanup (st : DbState) : DbState :=
  let docs := st.documents.filter
    (fun d => st.collections.any (fun cr => cr.name = d.collection))
  let embs := st.embeddings.filter
    (fun e => docs.any (fun d => d.id = e.document_id))
  ⟨st.collections, docs, embs⟩

/-- `DatabaseManager.removeCollection`: the DELETE, then `cleanup()`. -/
def removeCollection (st : DbState) (name : String) : ℕ × DbState :=
  let r := removeCollectionRun st name
  (r.1, cleanup r.2)

/-- `CollectionManager.remove`: throws (`some` error message) iff the
DELETE reported zero changes — but only after `removeCollection` already
ran against the store. -/
def managerRemove (st : DbState) (name : String) : Option String × DbState :=
  let r := removeCollection st name
  if r.1 = 0 then
    (some ("Collection \"" ++ name ++ "\" not found"), r.2)
  else (none, r.2)

/-- No document names a missing collection and no embedding names a
missing document. -/
def noOrphans (st : DbState) : Prop :=
  (∀ d ∈ st.documents,
    st.collections.any (fun cr => cr.name = d.collection) = true) ∧
  (∀ e ∈ st.embeddings,
    st.documents.any (fun d => d.id = e.document_id) = true)

/-- A store holding only an orphaned embedding. -/
def orphanState : DbState := ⟨[], [], [⟨"x", "[1]"⟩]⟩

/-- C10 counterexample: removing an absent collection throws NotFound, yet
the state is NOT unchanged — `removeCollection` runs `cleanup()` before
`remove` checks `changes === 0`, so a pre-existing orphaned embedding is
deleted by the failing call. -/
theorem C10_failed_remove_mutates :
    (managerRemove orphanState "c").1.isSome = true ∧
    (managerRemove orphanState "c").2 ≠ orphanState := by
  decide

/-- C10 (amended): with duplicate-free document ids (the id primary key),
removing an absent collection throws NotFound, leaves the collections
table unchanged, and leaves the whole state unchanged provided the store
had no orphans (otherwise the failing call still cleans them up); removing
a present collection succeeds and leaves zero documents of that collection
and zero embeddings referencing a document of that collection. -/
theorem C10_remove_notfound_and_cascade (st : DbState) (name : String)
    (hids : (st.documents.map (fun d => d.id)).Nodup) :
    ((∀ cr ∈ st.collections, cr.name ≠ name) →
      (managerRemove st name).1.isSome = true ∧
      (managerRemove st name).2.collections = st.collections ∧
      (noOrphans st → (managerRemove st name).2 = st)) ∧
    ((∃ cr ∈ st.collections, cr.name = name) →
      (managerRemove st name).1 = none ∧
      (∀ d ∈ (managerRemove st name).2.documents, d.collection ≠ name) ∧
      (∀ e ∈ (managerRemove st name).2.embeddings, ∀ d ∈ st.documents,
        d.collection = name → e.document_id ≠ d.id)) := by
  constructor
  · intro habs
    have hdel : st.collections.filter (fun cr => decide (cr.name = name)) = [] := by
      rw [List.filter_eq_nil_iff]
      intro cr hcr
      simp [habs cr hcr]
    have hkept : st.collections.filter (fun cr => decide (¬ cr.name = name)) =
        st.collections := by
      rw [List.filter_eq_self]
      intro cr hcr
      simp [habs cr hcr]
    have hrm : removeCollection st name = (0, cleanup st) := by
      simp only [removeCollection, removeCollectionRun, hdel, hkept, List.length_nil]
    have hmr : managerRemove st name =
        (some ("Collection \"" ++ name ++ "\" not found"), cleanup st) := by
      simp only [managerRemove, hrm]
      rfl
    refine ⟨by rw [hmr]; rfl, by rw [hmr]; rfl, ?_⟩
    intro hno
    rw [hmr]
    simp only [cleanup]
    have hdocs : st.documents.filter
        (fun d => st.collections.any (fun cr => cr.name = d.collection)) =
          st.documents :=
      List.filter_eq_self.mpr (fun d hd => hno.1 d hd)
    rw [hdocs]
    have hembs : st.embeddings.filter
        (fun e => st.documents.any (fun d => d.id = e.document_id)) =
          st.embeddings :=
      List.filter_eq_self.mpr (fun e he => hno.2 e he)
    rw [hembs]
  · rintro ⟨cr0, hcr0, hname⟩
    have hdel : cr0 ∈ st.collections.filter (fun cr => decide (cr.name = name)) :=
      List.mem_filter.mpr ⟨hcr0, by simp [hname]⟩
    have hch : (removeCollection st name).1 ≠ 0 := by
      simp only [removeCollection, removeCollectionRun]
      intro hz
      rw [List.length_eq_zero] at hz
      rw [hz] at hdel
      exact absurd hdel (List.not_mem_nil cr0)
    have hres : managerRemove st name = (none, (removeCollection st name).2) := by
      simp [managerRemove, hch]
    have hkeptmem : ∀ cr ∈ st.collections.filter (fun c => ¬ c.name = name),
        cr.name ≠ name := by
      intro cr hcr
      have := (List.mem_filter.mp hcr).2
      simpa using this
    have hdocs2 : (managerRemove st name).2.documents =
        st.documents.filter (fun d =>
          (st.collections.filter (fun c => ¬ c.name = name)).any
            (fun cr => cr.name = d.collection)) := by
      rw [hres]
      rfl
    refine ⟨by rw [hres], ?_, ?_⟩
    · intro d hd
      rw [hdocs2, List.mem_filter] at hd
      obtain ⟨cr, hcr, hcrn⟩ := List.any_eq_true.mp hd.2
      intro hdc
      rw [decide_eq_true_eq] at hcrn
      exact hkeptmem cr hcr (hcrn.trans hdc)
    · intro e he d hd hdcoll heq
      have he2 : e ∈ (managerRemove st name).2.embeddings := he
      rw [hres] at he2
      simp only [removeCollection, removeCollectionRun, cleanup] at he2
      rw [List.mem_filter] at he2
      obtain ⟨d', hd', hd'id⟩ := List.any_eq_true.mp he2.2
      rw [List.mem_filter] at hd'
      rw [decide_eq_true_eq] at hd'id
      have hd'mem : d' ∈ st.documents := hd'.1
      have hd'eq : d' = d := by
        apply List.inj_on_of_nodup_map hids hd'mem hd
        rw [hd'id, heq]
      obtain ⟨cr, hcr, hcrn⟩ := List.any_eq_true.mp hd'.2
      rw [List.mem_filter] at hcr
      rw [decide_eq_true_eq] at hcrn
      have : cr.name ≠ name := by simpa using hcr.2
      exact this (by rw [hcrn, hd'eq, hdcoll])

def c10Coll : CollRow := ⟨"c", "/notes", "**"⟩

def c10Doc : DocRow := ⟨"d1", "p1", "T", "x", "c", 3, 50⟩

def c10Emb : EmbRow := ⟨"d1", "[1]"⟩

def c10State : DbState := ⟨[c10Coll], [c10Doc], [c10Emb]⟩

/-- Witness for C10: removing the one present collection succeeds and no
document or embedding of it survives. -/
theorem C10_remove_notfound_and_cascade_witness :
    (managerRemove c10State "c").1 = none ∧
    (∀ d ∈ (managerRemove c10State "c").2.documents, d.collection ≠ "c") ∧
    (∀ e ∈ (managerRemove c10State "c").2.embeddings, ∀ d ∈ c10State.documents,
      d.collection = "c" → e.document_id ≠ d.id) :=
  (C10_remove_notfound_and_cascade c10State "c" (by decide)).2
    ⟨c10Coll, by decide, by decide⟩
